import Mathlib

/- A shallow embedding of `qmedianbuffer.h` (a fixed-capacity circular buffer
   of numeric samples with median / median-average / interval statistics),
   together with proofs settling the specification's claims.

   Modelling conventions:
   * the sample type `T` is embedded as `Int` (a signed numeric type); a second
     embedding at an unsigned 32-bit `T` is given for `occurenceOfValue`, where
     the distinction matters;
   * the time type `timeT` is embedded as `Nat`, with the unsigned wrap-around
     subtraction made explicit modulo `2 ^ 32` (`tsub`);
   * the result type `resultingT` is embedded as `ℚ` (exact division);
   * the backing C array `itemQ* items` is a `List ItemQ` whose length is the
     capacity; `uint8_t` arithmetic that can wrap is made explicit modulo 256;
   * the source's in-place insertion sort over the circular window
     (`sort(tail, len, arr, cap, f)`) is embedded by reading the logical window
     `arr[(i + tail) % cap]`, `i < len`, running the same left-to-right
     insertion sort (`insertLE` inserts a new element after all elements whose
     key is `≤` its key, exactly like the source's `while (key > key)` shifting
     loop), and writing the result back to the same physical slots;
   * member functions that mutate the buffer return a `result × Buf` pair. -/

namespace QMB

/-- One stored entry (`struct itemQ`): an insertion-order tag, the sample value
and the timestamp.  All fields are zero-initialised, as by `itemQ{}`. -/
structure ItemQ where
  insertOrder : Nat := 0
  value : Int := 0
  time : Nat := 0
deriving DecidableEq, Repr, Inhabited

/-- The buffer state: fixed capacity, backing array, circular indices, the
full flag, the push counter and the cached-intervals flag. -/
structure Buf where
  cap : Nat
  items : List ItemQ
  head : Nat := 0
  tail : Nat := 0
  isFull : Bool := false
  pushCount : Nat := 0
  valuesAreGoodIntervals : Bool := false
deriving DecidableEq, Repr

/-- Construction `qmedianbuffer(capacity)`: the backing array is allocated with
`new itemQ[capacity]`, which zero-initialises every slot. -/
def mkBuf (capacity : Nat) : Buf :=
  { cap := capacity, items := List.replicate capacity default }

/-- Unsigned wrap-around subtraction of `timeT` values (embedded at 32 bits):
for `a, b < 2 ^ 32` this is the value of the C expression `a - b`. -/
def tsub (a b : Nat) : Nat := (a + (2 ^ 32 - b % 2 ^ 32)) % 2 ^ 32

/-- The `absX` macro at a signed `T`: `((value) < 0 ? -1*(value) : (value))`. -/
def absX (value : Int) : Int := if value < 0 then -1 * value else value

/-- The `absX` macro at `resultingT` (embedded as `ℚ`). -/
def absXQ (value : ℚ) : ℚ := if value < 0 then -1 * value else value

/-- Method `isEmpty()`: `!_isFull && (_head == _tail)`. -/
def isEmpty (b : Buf) : Bool := !b.isFull && (b.head == b.tail)

/-- Method `getCount()`: capacity when full, otherwise the circular distance
from `_tail` to `_head`. -/
def getCount (b : Buf) : Nat :=
  if !b.isFull then
    if b.head ≥ b.tail then b.head - b.tail else b.cap + b.head - b.tail
  else b.cap

/-- Helper `getTruePos(posSeek, tail, capacity) = (posSeek + tail) % capacity`:
the physical slot of logical window position `posSeek`. -/
def getTruePos (posSeek tail capacity : Nat) : Nat := (posSeek + tail) % capacity

/-- Method `getItemAtPositionPtr(position)`: the item at logical `position`
(physical slot `(_tail + position) % _capacity`).  If the buffer is empty the
source instead returns a pointer to the zero-initialised block-scoped local
`emptyItem`, whose lifetime ends when the function returns — so a later
dereference of that pointer is undefined behaviour.  This total embedding
yields the zero item for the empty branch; every proof about a caller that
dereferences the result on a possibly-empty buffer must instead use
`getItemAtPositionPtrDeref`, which keeps that error path explicit.  All
internal callers (`pop`, the statistics loops, `deleteOld`) reach this
function only on a non-empty buffer, where the pointer is valid and the two
embeddings agree. -/
def getItemAtPositionPtr (b : Buf) (position : Nat) : ItemQ :=
  let item :=
    if position = 0 then b.items.getD b.tail default
    else b.items.getD ((b.tail + position) % b.cap) default
  if isEmpty b then default else item

/-- The observable result of dereferencing the pointer returned by
`getItemAtPositionPtr`: on a non-empty buffer, the array item it points to;
on an empty buffer the pointer targets the expired local `emptyItem`, so the
dereference is undefined behaviour — modelled as `none`. -/
def getItemAtPositionPtrDeref (b : Buf) (position : Nat) : Option ItemQ :=
  if isEmpty b then none
  else if position = 0 then some (b.items.getD b.tail default)
  else some (b.items.getD ((b.tail + position) % b.cap) default)

/-- Method `push(number, currentTime)`: bump the push counter, invalidate the
cached intervals, write the new item at `_head`, advance `_tail` when full,
advance `_head`, and recompute `_isFull` as `_head == _tail`. -/
def push (b : Buf) (number : Int) (currentTime : Nat) : Buf :=
  let b := { b with pushCount := (b.pushCount + 1) % 256,
                    valuesAreGoodIntervals := false }
  let newitem : ItemQ := { insertOrder := 0, value := number, time := currentTime }
  let b := { b with items := b.items.set b.head newitem }
  let b := if b.isFull then { b with tail := (b.tail + 1) % b.cap } else b
  let b := { b with head := (b.head + 1) % b.cap }
  { b with isFull := b.head == b.tail }

/-- Method `pop()`: on an empty buffer return `T()` and change nothing;
otherwise invalidate intervals, take the tail item's value, clear the full
flag and advance `_tail`. -/
def pop (b : Buf) : Int × Buf :=
  if isEmpty b then (0, b)
  else
    let b1 := { b with valuesAreGoodIntervals := false }
    let item := getItemAtPositionPtr b1 0
    let b2 := { b1 with isFull := false }
    (item.value, { b2 with tail := (b2.tail + 1) % b2.cap })

/-- Method `peek()`: the value of the oldest item, read through
`getItemAtPositionPtr`.  On an empty buffer the source dereferences the
expired local (undefined behaviour — see `getItemAtPositionPtrDeref`); this
total embedding is only faithful on a non-empty buffer. -/
def peek (b : Buf) : Int := (getItemAtPositionPtr b 0).value

/-- Method `peekTime()`: the timestamp of the oldest item, read through
`getItemAtPositionPtr`; as with `peek`, faithful only on a non-empty
buffer. -/
def peekTime (b : Buf) : Nat := (getItemAtPositionPtr b 0).time

/-- Method `deleteOld(currentTimeStamp, interval)`: false on an empty buffer;
otherwise pop the oldest item and return true exactly when
`currentTimeStamp - peekTime() < interval` (unsigned subtraction). -/
def deleteOld (b : Buf) (currentTimeStamp interval : Nat) : Bool × Buf :=
  if isEmpty b then (false, b)
  else if tsub currentTimeStamp (peekTime b) < interval then (true, (pop b).2)
  else (false, b)

/-- The logical window of length `len`: the items at physical slots
`getTruePos i tail cap` for `i < len`, in logical order. -/
def readWin (tail len : Nat) (arr : List ItemQ) (cap : Nat) : List ItemQ :=
  (List.range len).map (fun i => arr.getD (getTruePos i tail cap) default)

/-- Write the list `l` back to the physical slots `getTruePos (start+j) tail cap`
(`j`-th element of `l` to logical position `start + j`).  This realises the
writes that the source performs through `getItemAtPositionPtr`/`getTruePos`. -/
def writeWin (arr : List ItemQ) (tail cap start : Nat) : List ItemQ → List ItemQ
  | [] => arr
  | x :: xs => writeWin (arr.set (getTruePos start tail cap) x) tail cap (start + 1) xs

/-- The live window of the buffer: logical positions `0 .. getCount - 1`. -/
def window (b : Buf) : List ItemQ := readWin b.tail (getCount b) b.items b.cap

/-- One step of the source's insertion sort: insert `x` into the already
sorted prefix.  The source shifts elements to the right while their key is
strictly greater than `x`'s key, so `x` lands after every element whose key is
`≤` its key. -/
def insertLE (key : ItemQ → Int) (x : ItemQ) : List ItemQ → List ItemQ
  | [] => [x]
  | y :: ys => if key x < key y then x :: y :: ys else y :: insertLE key x ys

/-- The static `sort` routine's algorithm on the logical window, processed left
to right exactly like the source's `for (i = 1; i < len; i++)` loop. -/
def insertionSortC (key : ItemQ → Int) (l : List ItemQ) : List ItemQ :=
  l.foldl (fun acc x => insertLE key x acc) []

/-- Static `sort(tail, len, arr, arrCapacity, getSortValueFunc)`: the in-place
insertion sort of the logical window `[0, len)`, embedded as read window /
sort / write back to the same slots. -/
def sort (tail len : Nat) (arr : List ItemQ) (cap : Nat) (key : ItemQ → Int) : List ItemQ :=
  writeWin arr tail cap 0 (insertionSortC key (readWin tail len arr cap))

/-- Predicate `getItemValue`: sort key "the stored value". -/
def getItemValue (item : ItemQ) : Int := item.value

/-- Predicate `getItemInsertOrder`: sort key "the insertion-order tag", cast to
`T` (exact here, since `T` is embedded as `Int`). -/
def getItemInsertOrder (item : ItemQ) : Int := (item.insertOrder : Int)

/-- The tagging loop of `resetItemOrderOldestToZero`: item at window position
`i` gets `insertOrder := i` (tags counted from `start`). -/
def tagFrom (start : Nat) : List ItemQ → List ItemQ
  | [] => []
  | x :: xs => { x with insertOrder := start } :: tagFrom (start + 1) xs

/-- Method `resetItemOrderOldestToZero()`: the oldest live item gets tag 0 and
each younger one the next tag, written through the window positions. -/
def resetItemOrderOldestToZero (b : Buf) : Buf :=
  let tagged := tagFrom 0 (readWin b.tail (getCount b) b.items b.cap)
  { b with items := writeWin b.items b.tail b.cap 0 tagged }

/-- Method `sortToValues(len)`: when not empty, tag the live items and sort the
logical window `[0, len)` by value. -/
def sortToValues (b : Buf) (len : Nat) : Buf :=
  if isEmpty b then b
  else
    let b1 := resetItemOrderOldestToZero b
    { b1 with items := sort b1.tail len b1.items b1.cap getItemValue }

/-- Method `sortToInsertSequence()`: when not empty, sort the whole live window
by the insertion-order tags. -/
def sortToInsertSequence (b : Buf) : Buf :=
  if isEmpty b then b
  else { b with items := sort b.tail (getCount b) b.items b.cap getItemInsertOrder }

/-- The running-average loop `avg = (itemValue - avg) / (i + 1) + avg`, started
at `avg = 0`, `i = 0` (the `EXPECT_BIG_NUMBERS` variant of `_average`). -/
def runAvgAux (avg : ℚ) (i : Nat) : List ℚ → ℚ
  | [] => avg
  | x :: xs => runAvgAux ((x - avg) / ((i : ℚ) + 1) + avg) (i + 1) xs

/-- Static `_average(tail, len, arr, arrCapacity, f)`: running average of the
logical window `[0, len)`. -/
def _average (tail len : Nat) (arr : List ItemQ) (cap : Nat) (key : ItemQ → Int) : ℚ :=
  runAvgAux 0 0 ((List.range len).map
    (fun i => (key (arr.getD (getTruePos i tail cap) default) : ℚ)))

/-- Static `_median(tail, len, arr, arrCapacity, f)`: default for `len == 0`,
the single item for `len == 1`, otherwise the item at logical index `len / 2`
of the (previously sorted) window. -/
def _median (tail len : Nat) (arr : List ItemQ) (cap : Nat) (key : ItemQ → Int) : Int :=
  if len = 0 then 0
  else if len = 1 then key (arr.getD (getTruePos 0 tail cap) default)
  else key (arr.getD (getTruePos (len / 2) tail cap) default)

/-- The logical window indices read by `_medianAverage`'s averaging loop for
`len ≥ 2`: `evenNumCorrection`, the clamp `maxDistanceFromMedian ≤ len / 2`,
`startpos = len/2 - maxDistanceFromMedian - evenNumCorrection` (converted to
`uint8_t`, hence modulo 256), `total = 1 + 2*maxDistanceFromMedian +
evenNumCorrection` (also a `uint8_t`), and the loop indices
`startpos + i` for `i < total` (again converted to `uint8_t`). -/
def maLogicalPositions (len maxDistanceFromMedian : Nat) : List Nat :=
  let evenNumCorrection : Nat := if len % 2 = 0 then 1 else 0
  let maxD := if maxDistanceFromMedian > len / 2 then len / 2 else maxDistanceFromMedian
  let startpos : Nat :=
    (((len / 2 : Int) - (maxD : Int) - (evenNumCorrection : Int)) % 256).toNat
  let total : Nat := (1 + 2 * maxD + evenNumCorrection) % 256
  (List.range total).map (fun i => (startpos + i) % 256)

/-- Static `_medianAverage(tail, len, maxDistanceFromMedian, arr, cap, f)`:
default for `len == 0`, the single item for `len == 1`, otherwise the running
average of the items at the loop's logical window indices. -/
def _medianAverage (tail len maxDistanceFromMedian : Nat) (arr : List ItemQ)
    (cap : Nat) (key : ItemQ → Int) : ℚ :=
  if len = 0 then 0
  else if len = 1 then (key (arr.getD (getTruePos 0 tail cap) default) : ℚ)
  else runAvgAux 0 0 ((maLogicalPositions len maxDistanceFromMedian).map
    (fun p => (key (arr.getD (getTruePos p tail cap) default) : ℚ)))

/-- Static `_meanAbsoluteDeviationAroundMedianAverage`: default for `len < 2`,
otherwise the running average of `absX(item - medianAverage)` over the same
loop indices as `_medianAverage`. -/
def _meanAbsoluteDeviationAroundMedianAverage (tail len maxDistanceFromMedian : Nat)
    (arr : List ItemQ) (cap : Nat) (key : ItemQ → Int) : ℚ :=
  if len < 2 then 0
  else
    let med := _medianAverage tail len maxDistanceFromMedian arr cap key
    runAvgAux 0 0 ((maLogicalPositions len maxDistanceFromMedian).map
      (fun p => absXQ ((key (arr.getD (getTruePos p tail cap) default) : ℚ) - med)))

/-- Method `median()`: sort to values, pick the exact median, restore the
insertion sequence, return the picked value. -/
def median (b : Buf) : Int × Buf :=
  let b1 := sortToValues b (getCount b)
  let retVal := _median b1.tail (getCount b1) b1.items b1.cap getItemValue
  (retVal, sortToInsertSequence b1)

/-- Method `medianAverage(maxDistanceFromMedian)`: sort to values, average
around the median, restore the insertion sequence. -/
def medianAverage (b : Buf) (maxDistanceFromMedian : Nat) : ℚ × Buf :=
  let b1 := sortToValues b (getCount b)
  let retVal := _medianAverage b1.tail (getCount b1) maxDistanceFromMedian
    b1.items b1.cap getItemValue
  (retVal, sortToInsertSequence b1)

/-- Method `medianAverage()` (no argument): shortcut for
`medianAverage(getCount() / 4)`. -/
def medianAverageDefault (b : Buf) : ℚ × Buf := medianAverage b (getCount b / 4)

/-- Method `meanAbsoluteDeviationAroundMedianAverage(maxDistanceFromMedian)`:
sort to values, compute, restore the insertion sequence. -/
def meanAbsoluteDeviationAroundMedianAverage (b : Buf) (maxDistanceFromMedian : Nat) :
    ℚ × Buf :=
  let b1 := sortToValues b (getCount b)
  let retVal := _meanAbsoluteDeviationAroundMedianAverage b1.tail (getCount b1)
    maxDistanceFromMedian b1.items b1.cap getItemValue
  (retVal, sortToInsertSequence b1)

/-- Method `average()`: `_average` over the whole live window; does not
shuffle the order of items. -/
def average (b : Buf) : ℚ := _average b.tail (getCount b) b.items b.cap getItemValue

/-- The destructive interval transform on the window list: each item's value
becomes the unsigned delta to the next item's timestamp; the newest item's
value becomes 0. -/
def intervalsList : List ItemQ → List ItemQ
  | [] => []
  | [x] => [{ x with value := 0 }]
  | x :: y :: xs => { x with value := (tsub y.time x.time : Int) } :: intervalsList (y :: xs)

/-- Method `intervalsToValues()`: when the cached intervals are not valid and
at least 2 items are live, overwrite each live item's value with the interval
to its successor (the newest item getting 0) and set the cache flag. -/
def intervalsToValues (b : Buf) : Buf :=
  if b.valuesAreGoodIntervals then b
  else if getCount b < 2 then b
  else
    let transformed := writeWin b.items b.tail b.cap 0 (intervalsList (window b))
    { b with items := transformed, valuesAreGoodIntervals := true }

/-- Method `medianInterval()`: default below 2 items; otherwise transform to
intervals, sort the first `length - 1` window items by value, take their
median (the manufactured trailing 0 excluded), restore insertion order. -/
def medianInterval (b : Buf) : Int × Buf :=
  let length := getCount b
  if length < 2 then (0, b)
  else
    let b1 := intervalsToValues b
    let b2 := sortToValues b1 (length - 1)
    let retVal := _median b2.tail (length - 1) b2.items b2.cap getItemValue
    (retVal, sortToInsertSequence b2)

/-- Method `medianAverageInterval(maxDistanceFromMedian)`: like
`medianInterval` but with `_medianAverage` over the first `length - 1` items. -/
def medianAverageInterval (b : Buf) (maxDistanceFromMedian : Nat) : ℚ × Buf :=
  let length := getCount b
  if length < 2 then (0, b)
  else
    let b1 := intervalsToValues b
    let b2 := sortToValues b1 (length - 1)
    let retVal := _medianAverage b2.tail (length - 1) maxDistanceFromMedian
      b2.items b2.cap getItemValue
    (retVal, sortToInsertSequence b2)

/-- Method `averageInterval()`: default below 2 items; otherwise transform to
intervals and average the first `length - 1` window items. -/
def averageInterval (b : Buf) : ℚ × Buf :=
  let length := getCount b
  if length < 2 then (0, b)
  else
    let b1 := intervalsToValues b
    (_average b1.tail (length - 1) b1.items b1.cap getItemValue, b1)

/-- Method `medianRateOfChange()`: default below 2 items, otherwise
`1 / medianInterval()`. -/
def medianRateOfChange (b : Buf) : ℚ × Buf :=
  if getCount b < 2 then (0, b)
  else
    let p := medianInterval b
    (1 / (p.1 : ℚ), p.2)

/-- Method `medianAverageRateOfChange(maxDistanceFromMedian)`: default below 2
items, otherwise `1 / medianAverageInterval(maxDistanceFromMedian)`. -/
def medianAverageRateOfChange (b : Buf) (maxDistanceFromMedian : Nat) : ℚ × Buf :=
  if getCount b < 2 then (0, b)
  else
    let p := medianAverageInterval b maxDistanceFromMedian
    (1 / p.1, p.2)

/-- Method `averageRateOfChange()`: default below 2 items, otherwise
`1 / averageInterval()`. -/
def averageRateOfChange (b : Buf) : ℚ × Buf :=
  if getCount b < 2 then (0, b)
  else
    let p := averageInterval b
    (1 / p.1, p.2)

/-- Method `occurenceOfValue(testValue, epsilon)`: the number of live items
whose `absX(value - testValue)` is strictly less than `epsilon`. -/
def occurenceOfValue (b : Buf) (testValue epsilon : Int) : Nat :=
  ((List.range (getCount b)).filter
    (fun i => absX ((getItemAtPositionPtr b i).value - testValue) < epsilon)).length

/-- Method `frequencyOfValue(testValue, epsilon)`: the occurrence count divided
by `getCount()` (no emptiness guard in the source). -/
def frequencyOfValue (b : Buf) (testValue epsilon : Int) : ℚ :=
  (occurenceOfValue b testValue epsilon : ℚ) / (getCount b : ℚ)

/-- Unsigned subtraction of 32-bit unsigned values: the value of the C
expression `a - b` when `T` is a 32-bit (or wider) unsigned integer type. -/
def u32sub (a b : Nat) : Nat := (a + (2 ^ 32 - b % 2 ^ 32)) % 2 ^ 32

/-- The body of `occurenceOfValue` instantiated at `T` = a 32-bit unsigned
integer type, abstracted to the window's value list: the subtraction
`arrayValue - testValue` wraps modulo `2 ^ 32`, and on such a `T` the `absX`
macro is the identity because an unsigned value is never `< 0`. -/
def occurenceOfValueU32 (liveValues : List Nat) (testValue epsilon : Nat) : Nat :=
  (liveValues.filter (fun arrayValue => u32sub arrayValue testValue < epsilon)).length

/-- The public operations a caller may interleave before popping, for the FIFO
claim: pushes and the three order statistics. -/
inductive Op where
  | push (v : Int) (t : Nat)
  | median
  | medianAverageDefault
  | medianAverage (maxDistanceFromMedian : Nat)
  | meanAbsoluteDeviationAroundMedianAverage (maxDistanceFromMedian : Nat)
deriving DecidableEq, Repr

/-- Run one public operation, discarding any returned statistic. -/
def runOp (b : Buf) : Op → Buf
  | .push v t => push b v t
  | .median => (median b).2
  | .medianAverageDefault => (medianAverageDefault b).2
  | .medianAverage d => (medianAverage b d).2
  | .meanAbsoluteDeviationAroundMedianAverage d =>
      (meanAbsoluteDeviationAroundMedianAverage b d).2

/-- Run a sequence of public operations. -/
def runOps (b : Buf) (ops : List Op) : Buf := ops.foldl runOp b

/-- The (value, time) pairs pushed by a sequence of operations, in order. -/
def pushedVals (ops : List Op) : List (Int × Nat) :=
  ops.filterMap (fun op => match op with | Op.push v t => some (v, t) | _ => none)

/-- Push a list of (value, time) pairs, oldest first. -/
def pushAll (b : Buf) (l : List (Int × Nat)) : Buf :=
  l.foldl (fun b p => push b p.1 p.2) b

/-- Pop `n` times, collecting the returned values in order. -/
def popMany : Nat → Buf → List Int × Buf
  | 0, b => ([], b)
  | n + 1, b =>
    let p := pop b
    let rest := popMany n p.2
    (p.1 :: rest.1, rest.2)

/-- The items a capacity-`c` queue retains out of the pushed list `l`:
the most recent `min c l.length` entries. -/
def retained (c : Nat) (l : List (Int × Nat)) : List (Int × Nat) :=
  l.drop (l.length - c)

/-- The abstract content of the buffer: the (value, time) pairs of the live
window, oldest first. -/
def absQ (b : Buf) : List (Int × Nat) := (window b).map (fun it => (it.value, it.time))

/-- The effect of one operation on the abstract queue content: a push appends
(dropping the oldest entry when the queue is at capacity); the order
statistics leave the content unchanged. -/
def absStep (q : List (Int × Nat)) (cap : Nat) : Op → List (Int × Nat)
  | Op.push v t => (if q.length = cap then q.drop 1 else q) ++ [(v, t)]
  | _ => q

/-- The genuine inter-arrival deltas of a window: the unsigned difference of
each adjacent timestamp pair, in insertion order (one fewer than the items). -/
def deltasOf : List ItemQ → List Int
  | x :: y :: xs => ((tsub y.time x.time : Nat) : Int) :: deltasOf (y :: xs)
  | _ => []

/-- The state of a capacity-3 buffer holding pushes of 10 and 20 right after
`sortToValues`: the two live items tagged and sorted, the third slot dead
(all zero, as allocated).  Used as a concrete test vector. -/
def c3Items : List ItemQ :=
  [{ insertOrder := 0, value := 10, time := 0 },
   { insertOrder := 1, value := 20, time := 0 },
   { insertOrder := 0, value := 0, time := 0 }]

/-- The full buffer record for the test vector `c3Items`. -/
def c3Sorted : Buf :=
  { cap := 3, items := c3Items, head := 2, tail := 0, isFull := false,
    pushCount := 2, valuesAreGoodIntervals := false }

/-- Well-formedness of a buffer state (holds for every reachable state):
the backing array has exactly `capacity` slots, the capacity is positive, both
indices are in range, and the full flag implies `head == tail`. -/
def WF (b : Buf) : Prop :=
  b.items.length = b.cap ∧ 0 < b.cap ∧ b.head < b.cap ∧ b.tail < b.cap ∧
    (b.isFull = true → b.head = b.tail)

instance (b : Buf) : Decidable (WF b) := by unfold WF; infer_instance

/- ### Modular arithmetic and physical-slot lemmas -/

theorem mod_two_regions (a c : Nat) (hc : 0 < c) (h : a < 2 * c) :
    a % c = if a < c then a else a - c := by
  split
  · exact Nat.mod_eq_of_lt (by assumption)
  · have h1 : a - c < c := by omega
    have h2 : a % c = (a - c) % c := by
      conv_lhs => rw [show a = c + (a - c) by omega]
      rw [Nat.add_mod_left]
    rw [h2, Nat.mod_eq_of_lt h1]

theorem getTruePos_lt (posSeek tail c : Nat) (hc : 0 < c) : getTruePos posSeek tail c < c :=
  Nat.mod_lt _ hc

theorem getTruePos_mod (i tail c : Nat) : getTruePos i tail c = getTruePos i (tail % c) c := by
  unfold getTruePos
  rw [Nat.add_mod_mod]

theorem getTruePos_inj (tail c : Nat) (hc : 0 < c) {i j : Nat}
    (hi : i < c) (hj : j < c) (h : getTruePos i tail c = getTruePos j tail c) : i = j := by
  rw [getTruePos_mod i tail c, getTruePos_mod j tail c] at h
  have ht : tail % c < c := Nat.mod_lt _ hc
  set t := tail % c with hts
  unfold getTruePos at h
  rw [mod_two_regions (i + t) c hc (by omega), mod_two_regions (j + t) c hc (by omega)] at h
  split at h <;> split at h <;> omega

theorem getD_set_self (l : List ItemQ) (i : Nat) (x d : ItemQ) (h : i < l.length) :
    (l.set i x).getD i d = x := by
  rw [List.getD_eq_getElem?_getD, List.getElem?_set_self', List.getElem?_eq_getElem h]
  rfl

theorem getD_set_ne (l : List ItemQ) (i j : Nat) (x d : ItemQ) (h : i ≠ j) :
    (l.set i x).getD j d = l.getD j d := by
  rw [List.getD_eq_getElem?_getD, List.getElem?_set_ne h, ← List.getD_eq_getElem?_getD]

/- ### Reading and writing the logical window -/

theorem writeWin_length (tail c : Nat) (l : List ItemQ) : ∀ (arr : List ItemQ) (start : Nat),
    (writeWin arr tail c start l).length = arr.length := by
  induction l with
  | nil => intro arr start; rfl
  | cons x xs ih =>
    intro arr start
    rw [writeWin, ih, List.length_set]

theorem writeWin_getD_other (tail c : Nat) (hc : 0 < c)
    (l : List ItemQ) : ∀ (arr : List ItemQ) (start k : Nat) (d : ItemQ),
    (∀ j, j < l.length → k ≠ getTruePos (start + j) tail c) →
    (writeWin arr tail c start l).getD k d = arr.getD k d := by
  induction l with
  | nil => intro arr start k d _; rfl
  | cons x xs ih =>
    intro arr start k d hk
    rw [writeWin, ih]
    · refine getD_set_ne _ _ _ _ _ ?_
      have h0 := hk 0 (by simp)
      simpa using fun h => h0 (by rw [← h]; rw [Nat.add_zero])
    · intro j hj
      have h := hk (j + 1) (by simpa using Nat.succ_lt_succ hj)
      rwa [show start + (j + 1) = start + 1 + j by omega] at h

theorem writeWin_getD_mem (tail c : Nat) (hc : 0 < c)
    (l : List ItemQ) : ∀ (arr : List ItemQ) (start j : Nat) (d : ItemQ),
    arr.length = c → start + l.length ≤ c → j < l.length →
    (writeWin arr tail c start l).getD (getTruePos (start + j) tail c) d = l.getD j d := by
  induction l with
  | nil => intro arr start j d _ _ hj; exact absurd hj (by simp)
  | cons x xs ih =>
    intro arr start j d hlen hle hj
    cases j with
    | zero =>
      rw [writeWin]
      rw [writeWin_getD_other tail c hc xs _ _ _ _ ?_]
      · rw [Nat.add_zero]
        exact getD_set_self _ _ _ _ (by rw [hlen]; exact getTruePos_lt _ _ _ hc)
      · intro j' hj' heq
        have hlx : start + (xs.length + 1) ≤ c := by simpa using hle
        have := getTruePos_inj tail c hc (i := start + 0) (j := start + 1 + j')
          (by omega) (by omega) heq
        omega
    | succ j' =>
      rw [writeWin]
      rw [show start + (j' + 1) = start + 1 + j' by omega]
      rw [ih _ (start + 1) j' d (by rw [List.length_set]; exact hlen)
        (by simp at hle ⊢; omega) (by simpa using hj)]
      rfl

theorem readWin_length (tail len : Nat) (arr : List ItemQ) (c : Nat) :
    (readWin tail len arr c).length = len := by simp [readWin]

theorem readWin_getElem (tail len : Nat) (arr : List ItemQ) (c : Nat) (n : Nat)
    (h : n < (readWin tail len arr c).length) :
    (readWin tail len arr c)[n] = arr.getD (getTruePos n tail c) default := by
  simp [readWin]

theorem readWin_take (tail len count : Nat) (arr : List ItemQ) (c : Nat)
    (h : len ≤ count) :
    readWin tail len arr c = (readWin tail count arr c).take len := by
  unfold readWin
  rw [← List.map_take, List.take_range, Nat.min_eq_left h]

theorem readWin_writeWin_le (tail c len : Nat) (hc : 0 < c)
    (arr l : List ItemQ) (hlen : arr.length = c) (hl : l.length ≤ len) (hc2 : len ≤ c) :
    readWin tail len (writeWin arr tail c 0 l) c = l ++ (readWin tail len arr c).drop l.length := by
  apply List.ext_getElem
  · simp [readWin]; omega
  · intro n h1 h2
    rw [readWin_getElem _ _ _ _ _ h1]
    rcases Nat.lt_or_ge n l.length with hn | hn
    · have := writeWin_getD_mem tail c hc l arr 0 n default hlen (by omega) hn
      rw [Nat.zero_add] at this
      rw [this, List.getElem_append, dif_pos hn, List.getD_eq_getElem _ _ hn]
    · have hlt : n < len := by simpa [readWin_length] using h1
      rw [writeWin_getD_other tail c hc l arr 0 _ default ?_]
      · rw [List.getElem_append, dif_neg (by omega)]
        rw [List.getElem_drop]
        rw [readWin_getElem]
        congr 2
        omega
      · intro j hj heq
        have := getTruePos_inj tail c hc (i := n) (j := 0 + j) (by omega) (by omega) heq
        omega

theorem readWin_writeWin (tail c : Nat) (hc : 0 < c)
    (arr l : List ItemQ) (hlen : arr.length = c) (hl : l.length ≤ c) :
    readWin tail l.length (writeWin arr tail c 0 l) c = l := by
  rw [readWin_writeWin_le tail c l.length hc arr l hlen le_rfl hl]
  have h : (readWin tail l.length arr c).drop l.length = [] :=
    List.drop_eq_nil_of_le (by simp [readWin_length])
  rw [h, List.append_nil]

/- ### The insertion sort of the source: permutation, sortedness, uniqueness -/

theorem mem_insertLE (key : ItemQ → Int) (x : ItemQ) (l : List ItemQ) (z : ItemQ) :
    z ∈ insertLE key x l ↔ z = x ∨ z ∈ l := by
  induction l with
  | nil => simp [insertLE]
  | cons y ys ih =>
    rw [insertLE]
    split
    · exact List.mem_cons
    · rw [List.mem_cons, ih, List.mem_cons]
      tauto

theorem perm_insertLE (key : ItemQ → Int) (x : ItemQ) (l : List ItemQ) :
    (insertLE key x l).Perm (x :: l) := by
  induction l with
  | nil => exact List.Perm.refl _
  | cons y ys ih =>
    rw [insertLE]
    split
    · exact List.Perm.refl _
    · exact (ih.cons y).trans (List.Perm.swap x y ys)

theorem pairwise_insertLE (key : ItemQ → Int) (x : ItemQ) (l : List ItemQ)
    (hl : l.Pairwise (fun a b => key a ≤ key b)) :
    (insertLE key x l).Pairwise (fun a b => key a ≤ key b) := by
  induction l with
  | nil => simp [insertLE]
  | cons y ys ih =>
    rw [List.pairwise_cons] at hl
    obtain ⟨hy, hys⟩ := hl
    rw [insertLE]
    split
    · rename_i hxy
      refine List.pairwise_cons.2 ⟨?_, List.pairwise_cons.2 ⟨hy, hys⟩⟩
      intro z hz
      rcases List.mem_cons.1 hz with rfl | hz'
      · exact le_of_lt hxy
      · exact le_trans (le_of_lt hxy) (hy z hz')
    · rename_i hxy
      refine List.pairwise_cons.2 ⟨?_, ih hys⟩
      intro z hz
      rcases (mem_insertLE key x ys z).1 hz with rfl | hz'
      · exact not_lt.1 hxy
      · exact hy z hz'

theorem perm_foldl_insertLE (key : ItemQ → Int) :
    ∀ (l acc : List ItemQ),
    (l.foldl (fun acc x => insertLE key x acc) acc).Perm (acc ++ l) := by
  intro l
  induction l with
  | nil => intro acc; simp
  | cons x xs ih =>
    intro acc
    refine (ih (insertLE key x acc)).trans ?_
    refine (List.Perm.append_right xs (perm_insertLE key x acc)).trans ?_
    exact List.perm_middle.symm

theorem perm_insertionSortC (key : ItemQ → Int) (l : List ItemQ) :
    (insertionSortC key l).Perm l := by
  simpa using perm_foldl_insertLE key l []

theorem pairwise_foldl_insertLE (key : ItemQ → Int) :
    ∀ (l acc : List ItemQ), acc.Pairwise (fun a b => key a ≤ key b) →
    (l.foldl (fun acc x => insertLE key x acc) acc).Pairwise (fun a b => key a ≤ key b) := by
  intro l
  induction l with
  | nil => intro acc h; exact h
  | cons x xs ih => intro acc h; exact ih _ (pairwise_insertLE key x acc h)

theorem pairwise_insertionSortC (key : ItemQ → Int) (l : List ItemQ) :
    (insertionSortC key l).Pairwise (fun a b => key a ≤ key b) :=
  pairwise_foldl_insertLE key l [] (by simp)

theorem eq_of_perm_of_pairwise_lt (key : ItemQ → Int) :
    ∀ (l₁ l₂ : List ItemQ), l₁.Perm l₂ →
    l₁.Pairwise (fun a b => key a < key b) → l₂.Pairwise (fun a b => key a < key b) →
    l₁ = l₂ := by
  intro l₁
  induction l₁ with
  | nil =>
    intro l₂ hp _ _
    exact (hp.symm.eq_nil).symm
  | cons x xs ih =>
    intro l₂ hp h1 h2
    cases l₂ with
    | nil => simpa using hp.eq_nil
    | cons y ys =>
      have hx : x = y := by
        by_contra hxy
        have hxmem : x ∈ y :: ys := hp.mem_iff.1 (List.mem_cons_self x xs)
        have hymem : y ∈ x :: xs := hp.symm.mem_iff.1 (List.mem_cons_self y ys)
        rcases List.mem_cons.1 hxmem with h | h
        · exact hxy h
        · rcases List.mem_cons.1 hymem with h' | h'
          · exact hxy h'.symm
          · have k1 : key y < key x := (List.pairwise_cons.1 h2).1 x h
            have k2 : key x < key y := (List.pairwise_cons.1 h1).1 y h'
            omega
      subst hx
      rw [ih ys hp.cons_inv (List.pairwise_cons.1 h1).2 (List.pairwise_cons.1 h2).2]

theorem pairwise_lt_of_le_nodup (key : ItemQ → Int) (l : List ItemQ)
    (hle : l.Pairwise (fun a b => key a ≤ key b)) (hnd : (l.map key).Nodup) :
    l.Pairwise (fun a b => key a < key b) := by
  induction l with
  | nil => simp
  | cons x xs ih =>
    rw [List.pairwise_cons] at hle ⊢
    rw [List.map_cons, List.nodup_cons] at hnd
    refine ⟨?_, ih hle.2 hnd.2⟩
    intro z hz
    refine lt_of_le_of_ne (hle.1 z hz) ?_
    intro h
    exact hnd.1 (h ▸ List.mem_map_of_mem key hz)

/- ### The insertion-order tagging -/

theorem tagFrom_length (l : List ItemQ) : ∀ start, (tagFrom start l).length = l.length := by
  induction l with
  | nil => intro start; rfl
  | cons x xs ih => intro start; rw [tagFrom, List.length_cons, List.length_cons, ih]

theorem tagFrom_map_vt (l : List ItemQ) : ∀ start,
    (tagFrom start l).map (fun it => (it.value, it.time)) =
      l.map (fun it => (it.value, it.time)) := by
  induction l with
  | nil => intro start; rfl
  | cons x xs ih => intro start; rw [tagFrom, List.map_cons, List.map_cons, ih]

theorem tagFrom_map_value (l : List ItemQ) : ∀ start,
    (tagFrom start l).map ItemQ.value = l.map ItemQ.value := by
  induction l with
  | nil => intro start; rfl
  | cons x xs ih => intro start; rw [tagFrom, List.map_cons, List.map_cons, ih]

theorem mem_tagFrom_le (l : List ItemQ) : ∀ start z, z ∈ tagFrom start l →
    start ≤ z.insertOrder := by
  induction l with
  | nil => intro start z h; simp [tagFrom] at h
  | cons x xs ih =>
    intro start z h
    rw [tagFrom] at h
    rcases List.mem_cons.1 h with rfl | h'
    · exact le_rfl
    · exact le_trans (by omega) (ih (start + 1) z h')

theorem tagFrom_pairwise_lt (l : List ItemQ) : ∀ start,
    (tagFrom start l).Pairwise
      (fun a b => getItemInsertOrder a < getItemInsertOrder b) := by
  induction l with
  | nil => intro start; simp [tagFrom]
  | cons x xs ih =>
    intro start
    rw [tagFrom]
    refine List.pairwise_cons.2 ⟨?_, ih (start + 1)⟩
    intro z hz
    have h1 := mem_tagFrom_le xs (start + 1) z hz
    have h2 : ({ x with insertOrder := start } : ItemQ).insertOrder = start := rfl
    unfold getItemInsertOrder
    rw [h2]
    exact_mod_cast (show start < z.insertOrder by omega)

/-- Restoring lemma: sorting any permutation of a freshly tagged window by the
insertion-order key returns exactly the tagged window. -/
theorem sortC_order_restores (w w' : List ItemQ)
    (hperm : w'.Perm (tagFrom 0 w)) :
    insertionSortC getItemInsertOrder w' = tagFrom 0 w := by
  have htag := tagFrom_pairwise_lt w 0
  have hnd : ((tagFrom 0 w).map getItemInsertOrder).Nodup :=
    (List.pairwise_map).2 (htag.imp fun h => Int.ne_of_lt h)
  have hperm2 : (insertionSortC getItemInsertOrder w').Perm (tagFrom 0 w) :=
    (perm_insertionSortC _ w').trans hperm
  have hnd2 : ((insertionSortC getItemInsertOrder w').map getItemInsertOrder).Nodup :=
    ((hperm2.map getItemInsertOrder).nodup_iff).2 hnd
  refine eq_of_perm_of_pairwise_lt getItemInsertOrder _ _ hperm2 ?_ htag
  exact pairwise_lt_of_le_nodup getItemInsertOrder _
    (pairwise_insertionSortC getItemInsertOrder w') hnd2

/- ### Buffer-level counting and emptiness -/

theorem window_def (b : Buf) : window b = readWin b.tail (getCount b) b.items b.cap := rfl

theorem window_length (b : Buf) : (window b).length = getCount b := by
  rw [window_def, readWin_length]

theorem absQ_length (b : Buf) : (absQ b).length = getCount b := by
  rw [absQ, List.length_map, window_length]

theorem getCount_empty (b : Buf) (h : isEmpty b = true) : getCount b = 0 := by
  unfold isEmpty at h
  simp only [Bool.and_eq_true, Bool.not_eq_true', beq_iff_eq] at h
  unfold getCount
  rw [h.1, h.2]
  simp

theorem getCount_pos (b : Buf) (hwf : WF b) (h : isEmpty b = false) : 0 < getCount b := by
  obtain ⟨hl, hc, hh, ht, hf⟩ := hwf
  by_cases hfull : b.isFull
  · unfold getCount
    simp [hfull]
    omega
  · have hb : b.isFull = false := by revert hfull; cases b.isFull <;> simp
    unfold isEmpty at h
    simp only [hb, Bool.not_false, Bool.true_and, beq_eq_false_iff_ne, ne_eq] at h
    unfold getCount
    rw [hb]
    simp only [Bool.not_false, if_true]
    split <;> omega

theorem isEmpty_false_of_count_pos (b : Buf) (h : 0 < getCount b) : isEmpty b = false := by
  by_cases he : isEmpty b = true
  · rw [getCount_empty b he] at h
    omega
  · revert he
    cases isEmpty b <;> simp

theorem getCount_le_cap (b : Buf) (hwf : WF b) : getCount b ≤ b.cap := by
  obtain ⟨hl, hc, hh, ht, hf⟩ := hwf
  unfold getCount
  split
  · split <;> omega
  · omega

theorem getCount_lt_cap_of_not_full (b : Buf) (hwf : WF b) (h : b.isFull = false) :
    getCount b < b.cap := by
  obtain ⟨hl, hc, hh, ht, hf⟩ := hwf
  unfold getCount
  rw [h]
  simp only [Bool.not_false, if_true]
  split <;> omega

theorem head_eq (b : Buf) (hwf : WF b) : getTruePos (getCount b) b.tail b.cap = b.head := by
  obtain ⟨hl, hc, hh, ht, hf⟩ := hwf
  unfold getTruePos getCount
  by_cases hfull : b.isFull
  · rw [hfull, show (!true) = false from rfl, if_neg (by simp)]
    rw [Nat.add_mod_left, Nat.mod_eq_of_lt ht]
    exact (hf hfull).symm
  · have hb : b.isFull = false := by revert hfull; cases b.isFull <;> simp
    rw [hb, show (!false) = true from rfl, if_pos rfl]
    split
    · rw [show b.head - b.tail + b.tail = b.head by omega, Nat.mod_eq_of_lt hh]
    · rw [show b.cap + b.head - b.tail + b.tail = b.head + b.cap by omega,
        Nat.add_mod_right, Nat.mod_eq_of_lt hh]

/- ### Field preservation by the sorting operations -/

theorem resetOrder_items_length (b : Buf) :
    (resetItemOrderOldestToZero b).items.length = b.items.length := by
  show (writeWin b.items b.tail b.cap 0 _).length = b.items.length
  exact writeWin_length ..

theorem getCount_resetOrder (b : Buf) :
    getCount (resetItemOrderOldestToZero b) = getCount b := rfl

theorem WF_of_fields {b b' : Buf} (hwf : WF b) (hcap : b'.cap = b.cap)
    (hh : b'.head = b.head) (ht : b'.tail = b.tail) (hf : b'.isFull = b.isFull)
    (hil : b'.items.length = b.items.length) : WF b' := by
  obtain ⟨h1, h2, h3, h4, h5⟩ := hwf
  refine ⟨by rw [hil, hcap]; exact h1, by rw [hcap]; exact h2,
    by rw [hcap, hh]; exact h3, by rw [hcap, ht]; exact h4, ?_⟩
  intro hx
  rw [hh, ht]
  rw [hf] at hx
  exact h5 hx

theorem getCount_of_fields {b b' : Buf} (hcap : b'.cap = b.cap) (hh : b'.head = b.head)
    (ht : b'.tail = b.tail) (hf : b'.isFull = b.isFull) : getCount b' = getCount b := by
  unfold getCount
  rw [hcap, hh, ht, hf]

theorem isEmpty_of_fields {b b' : Buf} (hh : b'.head = b.head)
    (ht : b'.tail = b.tail) (hf : b'.isFull = b.isFull) : isEmpty b' = isEmpty b := by
  unfold isEmpty
  rw [hh, ht, hf]

theorem sortToValues_cap (b : Buf) (len : Nat) : (sortToValues b len).cap = b.cap := by
  unfold sortToValues
  split <;> rfl

theorem sortToValues_head (b : Buf) (len : Nat) : (sortToValues b len).head = b.head := by
  unfold sortToValues
  split <;> rfl

theorem sortToValues_tail (b : Buf) (len : Nat) : (sortToValues b len).tail = b.tail := by
  unfold sortToValues
  split <;> rfl

theorem sortToValues_isFull (b : Buf) (len : Nat) :
    (sortToValues b len).isFull = b.isFull := by
  unfold sortToValues
  split <;> rfl

theorem sortToValues_vagi (b : Buf) (len : Nat) :
    (sortToValues b len).valuesAreGoodIntervals = b.valuesAreGoodIntervals := by
  unfold sortToValues
  split <;> rfl

theorem sortToValues_items_length (b : Buf) (len : Nat) :
    (sortToValues b len).items.length = b.items.length := by
  unfold sortToValues
  split
  · rfl
  · show (sort (resetItemOrderOldestToZero b).tail len (resetItemOrderOldestToZero b).items
      (resetItemOrderOldestToZero b).cap getItemValue).length = b.items.length
    unfold sort
    rw [writeWin_length]
    exact resetOrder_items_length b

theorem sortToInsertSequence_cap (b : Buf) : (sortToInsertSequence b).cap = b.cap := by
  unfold sortToInsertSequence
  split <;> rfl

theorem sortToInsertSequence_head (b : Buf) : (sortToInsertSequence b).head = b.head := by
  unfold sortToInsertSequence
  split <;> rfl

theorem sortToInsertSequence_tail (b : Buf) : (sortToInsertSequence b).tail = b.tail := by
  unfold sortToInsertSequence
  split <;> rfl

theorem sortToInsertSequence_isFull (b : Buf) :
    (sortToInsertSequence b).isFull = b.isFull := by
  unfold sortToInsertSequence
  split <;> rfl

theorem sortToInsertSequence_vagi (b : Buf) :
    (sortToInsertSequence b).valuesAreGoodIntervals = b.valuesAreGoodIntervals := by
  unfold sortToInsertSequence
  split <;> rfl

theorem sortToInsertSequence_items_length (b : Buf) :
    (sortToInsertSequence b).items.length = b.items.length := by
  unfold sortToInsertSequence
  split
  · rfl
  · show (sort b.tail (getCount b) b.items b.cap getItemInsertOrder).length = b.items.length
    unfold sort
    rw [writeWin_length]

/- ### Window transformation by the sorting operations -/

theorem window_set_items (b : Buf) (X : List ItemQ) :
    window { b with items := X } = readWin b.tail (getCount b) X b.cap := rfl

theorem window_resetOrder (b : Buf) (hwf : WF b) :
    window (resetItemOrderOldestToZero b) = tagFrom 0 (window b) := by
  have hlen : (tagFrom 0 (window b)).length = getCount b := by
    rw [tagFrom_length, window_length]
  have key := readWin_writeWin b.tail b.cap hwf.2.1 b.items (tagFrom 0 (window b)) hwf.1
    (by rw [hlen]; exact getCount_le_cap b hwf)
  rw [hlen] at key
  exact key

theorem window_set_sort (b : Buf) (len : Nat) (key : ItemQ → Int)
    (hl : b.items.length = b.cap) (hc : 0 < b.cap)
    (hlen : len ≤ getCount b) (hcap : getCount b ≤ b.cap) :
    window { b with items := sort b.tail len b.items b.cap key }
      = insertionSortC key ((window b).take len) ++ (window b).drop len := by
  rw [window_set_items]
  unfold sort
  have h1 : readWin b.tail len b.items b.cap = (window b).take len := by
    rw [readWin_take b.tail len (getCount b) b.items b.cap hlen]
    rfl
  rw [h1]
  have hslen : (insertionSortC key ((window b).take len)).length = len := by
    rw [(perm_insertionSortC key _).length_eq, List.length_take, window_length]
    omega
  have hfin := readWin_writeWin_le b.tail b.cap (getCount b) hc b.items
    (insertionSortC key ((window b).take len)) hl (by rw [hslen]; exact hlen) hcap
  rw [hslen] at hfin
  rw [hfin]
  rfl

theorem window_sortToValues (b : Buf) (len : Nat) (hwf : WF b) (hne : isEmpty b = false)
    (hlen : len ≤ getCount b) :
    window (sortToValues b len)
      = insertionSortC getItemValue ((tagFrom 0 (window b)).take len)
        ++ (tagFrom 0 (window b)).drop len := by
  unfold sortToValues
  rw [if_neg (by simp [hne])]
  show window { resetItemOrderOldestToZero b with
      items := sort (resetItemOrderOldestToZero b).tail len (resetItemOrderOldestToZero b).items
        (resetItemOrderOldestToZero b).cap getItemValue } = _
  rw [window_set_sort (resetItemOrderOldestToZero b) len getItemValue
    (by rw [resetOrder_items_length]; exact hwf.1) hwf.2.1 hlen (getCount_le_cap b hwf)]
  rw [window_resetOrder b hwf]

theorem window_sortToInsertSequence (b : Buf) (hwf : WF b) (hne : isEmpty b = false) :
    window (sortToInsertSequence b) = insertionSortC getItemInsertOrder (window b) := by
  unfold sortToInsertSequence
  rw [if_neg (by simp [hne])]
  show window { b with items := sort b.tail (getCount b) b.items b.cap getItemInsertOrder } = _
  rw [window_set_sort b (getCount b) getItemInsertOrder hwf.1 hwf.2.1 le_rfl
    (getCount_le_cap b hwf)]
  rw [List.take_of_length_le (by rw [window_length]),
    List.drop_eq_nil_of_le (by rw [window_length]), List.append_nil]

/-- The reorder / restore protocol: sorting the window by value (any prefix
length) and then sorting back by the insertion-order tags returns the live
window to its pre-sort sequence, freshly tagged. -/
theorem window_restore (b : Buf) (len : Nat) (hwf : WF b) (hne : isEmpty b = false)
    (hlen : len ≤ getCount b) :
    window (sortToInsertSequence (sortToValues b len)) = tagFrom 0 (window b) := by
  have h1 := window_sortToValues b len hwf hne hlen
  have hwf1 : WF (sortToValues b len) :=
    WF_of_fields hwf (sortToValues_cap b len) (sortToValues_head b len)
      (sortToValues_tail b len) (sortToValues_isFull b len) (sortToValues_items_length b len)
  have hne1 : isEmpty (sortToValues b len) = false := by
    rw [isEmpty_of_fields (sortToValues_head b len) (sortToValues_tail b len)
      (sortToValues_isFull b len)]
    exact hne
  rw [window_sortToInsertSequence _ hwf1 hne1, h1]
  refine sortC_order_restores (window b) _ ?_
  have hp := (perm_insertionSortC getItemValue
    ((tagFrom 0 (window b)).take len)).append_right ((tagFrom 0 (window b)).drop len)
  rw [List.take_append_drop] at hp
  exact hp

theorem absQ_restore (b : Buf) (len : Nat) (hwf : WF b) (hlen : len ≤ getCount b) :
    absQ (sortToInsertSequence (sortToValues b len)) = absQ b := by
  by_cases hne : isEmpty b = true
  · unfold sortToValues
    rw [if_pos (by simp [hne])]
    unfold sortToInsertSequence
    rw [if_pos (by simp [hne])]
  · have hne' : isEmpty b = false := by revert hne; cases isEmpty b <;> simp
    unfold absQ
    rw [window_restore b len hwf hne' hlen, tagFrom_map_vt]

/- ### Item access -/

theorem getItemAtPositionPtr_eq (b : Buf) (pos : Nat) (hne : isEmpty b = false)
    (ht : b.tail < b.cap) :
    getItemAtPositionPtr b pos = b.items.getD (getTruePos pos b.tail b.cap) default := by
  simp only [getItemAtPositionPtr]
  rw [if_neg (by simp [hne])]
  by_cases h0 : pos = 0
  · rw [if_pos h0, h0]
    unfold getTruePos
    rw [Nat.zero_add, Nat.mod_eq_of_lt ht]
  · rw [if_neg h0]
    unfold getTruePos
    rw [Nat.add_comm]

theorem getItemAtPositionPtr_empty (b : Buf) (pos : Nat) (he : isEmpty b = true) :
    getItemAtPositionPtr b pos = default := by
  simp only [getItemAtPositionPtr]
  rw [if_pos he]

theorem window_getElem (b : Buf) (n : Nat) (h : n < (window b).length) :
    (window b)[n] = b.items.getD (getTruePos n b.tail b.cap) default := by
  have h' : n < (readWin b.tail (getCount b) b.items b.cap).length := h
  exact readWin_getElem _ _ _ _ _ h'

theorem window_getD (b : Buf) (n : Nat) (h : n < getCount b) :
    (window b).getD n default = b.items.getD (getTruePos n b.tail b.cap) default := by
  rw [List.getD_eq_getElem _ _ (by rw [window_length]; exact h)]
  exact window_getElem b n _

theorem getD_append_lt (l l' : List ItemQ) (n : Nat) (h : n < l.length) :
    (l ++ l').getD n default = l.getD n default := by
  rw [List.getD_eq_getElem _ _ (by rw [List.length_append]; omega),
    List.getElem_append, dif_pos h, List.getD_eq_getElem _ _ h]

theorem getD_append_ge (l l' : List ItemQ) (n : Nat) (h : l.length ≤ n)
    (h2 : n < l.length + l'.length) :
    (l ++ l').getD n default = l'.getD (n - l.length) default := by
  rw [List.getD_eq_getElem _ _ (by rw [List.length_append]; omega), List.getElem_append,
    dif_neg (by omega), List.getD_eq_getElem _ _ (by omega)]

theorem getD_drop_one (l : List ItemQ) (n : Nat) (h : n < (l.drop 1).length) :
    (l.drop 1).getD n default = l.getD (1 + n) default := by
  rw [List.getD_eq_getElem _ _ h, List.getElem_drop,
    List.getD_eq_getElem _ _ (by rw [List.length_drop] at h; omega)]

theorem mod_succ_cases (a c : Nat) (hc : 0 < c) (ha : a < c) :
    (a + 1 < c ∧ (a + 1) % c = a + 1) ∨ (a + 1 = c ∧ (a + 1) % c = 0) := by
  rcases Nat.lt_or_ge (a + 1) c with h | h
  · exact Or.inl ⟨h, Nat.mod_eq_of_lt h⟩
  · have he : a + 1 = c := by omega
    exact Or.inr ⟨he, by rw [he, Nat.mod_self]⟩

theorem getTruePos_shift (n tail c : Nat) :
    getTruePos n ((tail + 1) % c) c = getTruePos (n + 1) tail c := by
  unfold getTruePos
  rw [Nat.add_mod_mod]
  congr 1
  omega

/- ### The push operation -/

theorem push_cap (b : Buf) (v : Int) (t : Nat) : (push b v t).cap = b.cap := by
  by_cases hf : b.isFull <;> simp [push, hf]

theorem push_head (b : Buf) (v : Int) (t : Nat) :
    (push b v t).head = (b.head + 1) % b.cap := by
  by_cases hf : b.isFull <;> simp [push, hf]

theorem push_tail (b : Buf) (v : Int) (t : Nat) :
    (push b v t).tail = if b.isFull = true then (b.tail + 1) % b.cap else b.tail := by
  by_cases hf : b.isFull <;> simp [push, hf]

theorem push_isFull (b : Buf) (v : Int) (t : Nat) :
    (push b v t).isFull
      = ((b.head + 1) % b.cap
          == if b.isFull = true then (b.tail + 1) % b.cap else b.tail) := by
  by_cases hf : b.isFull <;> simp [push, hf]

theorem push_items (b : Buf) (v : Int) (t : Nat) :
    (push b v t).items = b.items.set b.head { insertOrder := 0, value := v, time := t } := by
  by_cases hf : b.isFull <;> simp [push, hf]

theorem push_vagi (b : Buf) (v : Int) (t : Nat) :
    (push b v t).valuesAreGoodIntervals = false := by
  by_cases hf : b.isFull <;> simp [push, hf]

theorem getCount_full (b : Buf) (hfull : b.isFull = true) : getCount b = b.cap := by
  simp [getCount, hfull]

theorem getCount_not_full (b : Buf) (hb : b.isFull = false) :
    getCount b = if b.head ≥ b.tail then b.head - b.tail else b.cap + b.head - b.tail := by
  unfold getCount
  rw [hb, show (!false) = true from rfl, if_pos rfl]

theorem push_WF (b : Buf) (v : Int) (t : Nat) (hwf : WF b) : WF (push b v t) := by
  obtain ⟨hl, hc, hh, ht, hf⟩ := hwf
  refine ⟨?_, ?_, ?_, ?_, ?_⟩
  · rw [push_items, List.length_set, push_cap]
    exact hl
  · rw [push_cap]
    exact hc
  · rw [push_head, push_cap]
    exact Nat.mod_lt _ hc
  · rw [push_tail, push_cap]
    split
    · exact Nat.mod_lt _ hc
    · exact ht
  · intro hx
    rw [push_isFull] at hx
    rw [push_head, push_tail]
    exact beq_iff_eq.1 hx

theorem getCount_push (b : Buf) (v : Int) (t : Nat) (hwf : WF b) :
    getCount (push b v t) = if getCount b = b.cap then b.cap else getCount b + 1 := by
  obtain ⟨hl, hc, hh, ht, hf⟩ := hwf
  by_cases hfull : b.isFull = true
  · have hht := hf hfull
    have hfull' : (push b v t).isFull = true := by
      rw [push_isFull, hfull, if_pos rfl, hht]
      exact beq_self_eq_true _
    rw [getCount_full _ hfull', push_cap, if_pos (getCount_full b hfull)]
  · have hb : b.isFull = false := by revert hfull; cases b.isFull <;> simp
    have hlt : getCount b < b.cap := getCount_lt_cap_of_not_full b ⟨hl, hc, hh, ht, hf⟩ hb
    rw [if_neg (by omega)]
    have hcnt := getCount_not_full b hb
    have hif : (push b v t).isFull = (((b.head + 1) % b.cap == b.tail) : Bool) := by
      rw [push_isFull, hb, if_neg (by simp)]
    have htl : (push b v t).tail = b.tail := by
      rw [push_tail, hb, if_neg (by simp)]
    rcases mod_succ_cases b.head b.cap hc hh with ⟨h1, h2⟩ | ⟨h1, h2⟩
    · by_cases he : b.head + 1 = b.tail
      · have hfull2 : (push b v t).isFull = true := by
          rw [hif, h2, he]
          exact beq_self_eq_true _
        rw [getCount_full _ hfull2, push_cap, hcnt]
        split_ifs <;> omega
      · have hfull2 : (push b v t).isFull = false := by
          rw [hif, h2]
          exact beq_eq_false_iff_ne.2 he
        rw [getCount_not_full _ hfull2, push_head, htl, push_cap, h2, hcnt]
        split_ifs <;> omega
    · by_cases he : b.tail = 0
      · have hfull2 : (push b v t).isFull = true := by
          rw [hif, h2, he]
          exact beq_self_eq_true _
        rw [getCount_full _ hfull2, push_cap, hcnt]
        split_ifs <;> omega
      · have hfull2 : (push b v t).isFull = false := by
          rw [hif, h2]
          exact beq_eq_false_iff_ne.2 (by omega)
        rw [getCount_not_full _ hfull2, push_head, htl, push_cap, h2, hcnt]
        split_ifs <;> omega

theorem window_push (b : Buf) (v : Int) (t : Nat) (hwf : WF b) :
    window (push b v t)
      = (if getCount b = b.cap then (window b).drop 1 else window b)
        ++ [{ insertOrder := 0, value := v, time := t }] := by
  have hwf' := hwf
  obtain ⟨hl, hc, hh, ht, hf⟩ := hwf'
  have hcle := getCount_le_cap b hwf
  have hcp := getCount_push b v t hwf
  have hhead := head_eq b hwf
  apply List.ext_getElem
  · rw [window_length, hcp, List.length_append, List.length_cons, List.length_nil]
    by_cases hcf : getCount b = b.cap
    · rw [if_pos hcf, if_pos hcf, List.length_drop, window_length]
      omega
    · rw [if_neg hcf, if_neg hcf, window_length]
  · intro n h1 h2
    rw [window_getElem _ _ h1, push_items, push_tail, push_cap]
    rw [show ((if getCount b = b.cap then (window b).drop 1 else window b) ++
          [({ insertOrder := 0, value := v, time := t } : ItemQ)])[n]
        = ((if getCount b = b.cap then (window b).drop 1 else window b) ++
          [({ insertOrder := 0, value := v, time := t } : ItemQ)]).getD n default
      from (List.getD_eq_getElem _ _ h2).symm]
    have hn' : n < getCount (push b v t) := by rw [← window_length]; exact h1
    rw [hcp] at hn'
    by_cases hfull : b.isFull = true
    · have hht := hf hfull
      have hcfull : getCount b = b.cap := getCount_full b hfull
      rw [if_pos hcfull] at hn' ⊢
      rw [if_pos hfull, getTruePos_shift]
      rcases Nat.lt_or_ge n (b.cap - 1) with hn | hn
      · rw [getD_append_lt _ _ _ (by rw [List.length_drop, window_length]; omega)]
        rw [getD_drop_one _ _ (by rw [List.length_drop, window_length]; omega)]
        rw [window_getD b (1 + n) (by omega)]
        rw [getD_set_ne _ _ _ _ _ ?_]
        · congr 2
          omega
        · have hheadpos : b.head = getTruePos 0 b.tail b.cap := by
            unfold getTruePos
            rw [Nat.zero_add, Nat.mod_eq_of_lt ht, hht]
          rw [hheadpos]
          intro hcontra
          have := getTruePos_inj b.tail b.cap hc (i := 0) (j := n + 1)
            (by omega) (by omega) hcontra
          omega
      · have hpos : getTruePos (n + 1) b.tail b.cap = b.head := by
          rw [hht]
          unfold getTruePos
          rw [show n + 1 = b.cap from by omega, Nat.add_mod_left,
            Nat.mod_eq_of_lt ht]
        rw [hpos, getD_set_self _ _ _ _ (by rw [hl]; exact hh)]
        rw [getD_append_ge _ _ _ (by rw [List.length_drop, window_length]; omega)
          (by rw [List.length_drop, window_length, List.length_cons, List.length_nil]; omega)]
        rw [show n - ((window b).drop 1).length = 0 from
          by rw [List.length_drop, window_length]; omega]
        rfl
    · have hb : b.isFull = false := by revert hfull; cases b.isFull <;> simp
      have hlt : getCount b < b.cap := getCount_lt_cap_of_not_full b hwf hb
      have hcf : ¬ getCount b = b.cap := by omega
      have hbf : ¬ b.isFull = true := by simp [hb]
      rw [if_neg hcf] at hn' ⊢
      rw [if_neg hbf]
      rcases Nat.lt_or_ge n (getCount b) with hn | hn
      · rw [getD_append_lt _ _ _ (by rw [window_length]; omega)]
        rw [window_getD b n (by omega)]
        rw [getD_set_ne _ _ _ _ _ ?_]
        rw [← hhead]
        intro hcontra
        have := getTruePos_inj b.tail b.cap hc (i := getCount b) (j := n)
          (by omega) (by omega) hcontra
        omega
      · have hn0 : n = getCount b := by omega
        rw [hn0, hhead, getD_set_self _ _ _ _ (by rw [hl]; exact hh)]
        rw [getD_append_ge _ _ _ (by rw [window_length])
          (by rw [window_length, List.length_cons, List.length_nil]; omega)]
        rw [show getCount b - (window b).length = 0 from by rw [window_length]; omega]
        rfl

/- ### The pop operation -/

theorem pop_eq (b : Buf) (hne : isEmpty b = false) :
    pop b = ((b.items.getD b.tail default).value,
      { b with valuesAreGoodIntervals := false, isFull := false,
               tail := (b.tail + 1) % b.cap }) := by
  unfold pop
  rw [if_neg (by simp [hne])]
  have h1 : isEmpty { b with valuesAreGoodIntervals := false } = false := by
    rw [isEmpty_of_fields rfl rfl rfl]
    exact hne
  simp only [getItemAtPositionPtr, h1]
  simp

theorem pop_val (b : Buf) (hwf : WF b) (hne : isEmpty b = false) :
    (pop b).1 = ((window b).getD 0 default).value := by
  rw [pop_eq b hne]
  have hpos : 0 < getCount b := getCount_pos b hwf hne
  rw [window_getD b 0 hpos]
  unfold getTruePos
  rw [Nat.zero_add, Nat.mod_eq_of_lt hwf.2.2.2.1]

theorem pop_WF (b : Buf) (hwf : WF b) (hne : isEmpty b = false) : WF (pop b).2 := by
  rw [pop_eq b hne]
  obtain ⟨hl, hc, hh, ht, hf⟩ := hwf
  exact ⟨hl, hc, hh, Nat.mod_lt _ hc, by intro hx; exact absurd hx (by simp)⟩

theorem getCount_pop (b : Buf) (hwf : WF b) (hne : isEmpty b = false) :
    getCount (pop b).2 = getCount b - 1 := by
  rw [pop_eq b hne]
  obtain ⟨hl, hc, hh, ht, hf⟩ := hwf
  have h2 : getCount
      ({ b with valuesAreGoodIntervals := false, isFull := false,
                tail := (b.tail + 1) % b.cap } : Buf)
      = if b.head ≥ (b.tail + 1) % b.cap then b.head - (b.tail + 1) % b.cap
        else b.cap + b.head - (b.tail + 1) % b.cap := by
    exact getCount_not_full _ rfl
  rw [h2]
  rw [mod_two_regions (b.tail + 1) b.cap hc (by omega)]
  by_cases hfull : b.isFull = true
  · have hht := hf hfull
    rw [getCount_full b hfull]
    split_ifs <;> omega
  · have hb : b.isFull = false := by revert hfull; cases b.isFull <;> simp
    have hhtne : b.head ≠ b.tail := by
      intro hcontra
      have : isEmpty b = true := by simp [isEmpty, hb, hcontra]
      rw [this] at hne
      exact absurd hne (by simp)
    rw [getCount_not_full b hb]
    split_ifs <;> omega

theorem window_pop (b : Buf) (hwf : WF b) (hne : isEmpty b = false) :
    window (pop b).2 = (window b).drop 1 := by
  have hwf' := hwf
  obtain ⟨hl, hc, hh, ht, hf⟩ := hwf'
  have hcnt := getCount_pop b hwf hne
  apply List.ext_getElem
  · rw [window_length, hcnt, List.length_drop, window_length]
  · intro n h1 h2
    rw [window_getElem _ _ h1, List.getElem_drop,
      window_getElem _ _ (by rw [List.length_drop, window_length] at h2; rw [window_length]; omega)]
    rw [pop_eq b hne]
    show (b.items.getD (getTruePos n ((b.tail + 1) % b.cap) b.cap) default) = _
    rw [getTruePos_shift]
    congr 2
    omega

/- ### Abstract-queue preservation lemmas -/

theorem absQ_pop (b : Buf) (hwf : WF b) (hne : isEmpty b = false) :
    absQ (pop b).2 = (absQ b).drop 1 := by
  unfold absQ
  rw [window_pop b hwf hne, List.map_drop]

theorem pop_val_absQ (b : Buf) (hwf : WF b) (hne : isEmpty b = false) :
    (pop b).1 = ((absQ b).getD 0 (0, 0)).1 := by
  have hpos : 0 < getCount b := getCount_pos b hwf hne
  have h1 : (absQ b).getD 0 (0, 0)
      = (((window b).getD 0 default).value, ((window b).getD 0 default).time) := by
    unfold absQ
    rw [List.getD_eq_getElem _ _ (by rw [List.length_map, window_length]; omega),
      List.getElem_map, List.getD_eq_getElem _ _ (by rw [window_length]; omega)]
  rw [h1, pop_val b hwf hne]

theorem push_absQ (b : Buf) (v : Int) (t : Nat) (hwf : WF b) :
    absQ (push b v t) = (if getCount b = b.cap then (absQ b).drop 1 else absQ b) ++ [(v, t)] := by
  unfold absQ
  rw [window_push b v t hwf, List.map_append]
  by_cases hcf : getCount b = b.cap
  · rw [if_pos hcf, if_pos hcf, List.map_drop]
    rfl
  · rw [if_neg hcf, if_neg hcf]
    rfl

theorem median_state (b : Buf) :
    (median b).2 = sortToInsertSequence (sortToValues b (getCount b)) := rfl

theorem medianAverage_state (b : Buf) (d : Nat) :
    (medianAverage b d).2 = sortToInsertSequence (sortToValues b (getCount b)) := rfl

theorem medianAverageDefault_state (b : Buf) :
    (medianAverageDefault b).2 = sortToInsertSequence (sortToValues b (getCount b)) := rfl

theorem mad_state (b : Buf) (d : Nat) :
    (meanAbsoluteDeviationAroundMedianAverage b d).2
      = sortToInsertSequence (sortToValues b (getCount b)) := rfl

theorem stat_fields (b : Buf) (len : Nat) :
    (sortToInsertSequence (sortToValues b len)).cap = b.cap ∧
    (sortToInsertSequence (sortToValues b len)).head = b.head ∧
    (sortToInsertSequence (sortToValues b len)).tail = b.tail ∧
    (sortToInsertSequence (sortToValues b len)).isFull = b.isFull ∧
    (sortToInsertSequence (sortToValues b len)).items.length = b.items.length ∧
    (sortToInsertSequence (sortToValues b len)).valuesAreGoodIntervals
      = b.valuesAreGoodIntervals := by
  refine ⟨?_, ?_, ?_, ?_, ?_, ?_⟩
  · rw [sortToInsertSequence_cap, sortToValues_cap]
  · rw [sortToInsertSequence_head, sortToValues_head]
  · rw [sortToInsertSequence_tail, sortToValues_tail]
  · rw [sortToInsertSequence_isFull, sortToValues_isFull]
  · rw [sortToInsertSequence_items_length, sortToValues_items_length]
  · rw [sortToInsertSequence_vagi, sortToValues_vagi]

theorem restore_WF (b : Buf) (len : Nat) (hwf : WF b) :
    WF (sortToInsertSequence (sortToValues b len)) := by
  have h := stat_fields b len
  exact WF_of_fields hwf h.1 h.2.1 h.2.2.1 h.2.2.2.1 h.2.2.2.2.1

theorem runOp_WF (b : Buf) (op : Op) (hwf : WF b) : WF (runOp b op) := by
  cases op with
  | push v t => exact push_WF b v t hwf
  | median =>
    show WF (median b).2
    rw [median_state]
    exact restore_WF b (getCount b) hwf
  | medianAverageDefault =>
    show WF (medianAverageDefault b).2
    rw [medianAverageDefault_state]
    exact restore_WF b (getCount b) hwf
  | medianAverage d =>
    show WF (medianAverage b d).2
    rw [medianAverage_state]
    exact restore_WF b (getCount b) hwf
  | meanAbsoluteDeviationAroundMedianAverage d =>
    show WF (meanAbsoluteDeviationAroundMedianAverage b d).2
    rw [mad_state]
    exact restore_WF b (getCount b) hwf

theorem runOp_cap (b : Buf) (op : Op) : (runOp b op).cap = b.cap := by
  cases op with
  | push v t => exact push_cap b v t
  | median =>
    show (median b).2.cap = b.cap
    rw [median_state]
    exact (stat_fields b (getCount b)).1
  | medianAverageDefault =>
    show (medianAverageDefault b).2.cap = b.cap
    rw [medianAverageDefault_state]
    exact (stat_fields b (getCount b)).1
  | medianAverage d =>
    show (medianAverage b d).2.cap = b.cap
    rw [medianAverage_state]
    exact (stat_fields b (getCount b)).1
  | meanAbsoluteDeviationAroundMedianAverage d =>
    show (meanAbsoluteDeviationAroundMedianAverage b d).2.cap = b.cap
    rw [mad_state]
    exact (stat_fields b (getCount b)).1

theorem runOp_absQ (b : Buf) (op : Op) (hwf : WF b) :
    absQ (runOp b op) = absStep (absQ b) b.cap op := by
  cases op with
  | push v t =>
    show absQ (push b v t) = (if (absQ b).length = b.cap then (absQ b).drop 1 else absQ b) ++ [(v, t)]
    rw [absQ_length]
    exact push_absQ b v t hwf
  | median =>
    show absQ (median b).2 = absQ b
    rw [median_state]
    exact absQ_restore b (getCount b) hwf le_rfl
  | medianAverageDefault =>
    show absQ (medianAverageDefault b).2 = absQ b
    rw [medianAverageDefault_state]
    exact absQ_restore b (getCount b) hwf le_rfl
  | medianAverage d =>
    show absQ (medianAverage b d).2 = absQ b
    rw [medianAverage_state]
    exact absQ_restore b (getCount b) hwf le_rfl
  | meanAbsoluteDeviationAroundMedianAverage d =>
    show absQ (meanAbsoluteDeviationAroundMedianAverage b d).2 = absQ b
    rw [mad_state]
    exact absQ_restore b (getCount b) hwf le_rfl

theorem runOps_absQ (cap : Nat) : ∀ (ops : List Op) (b : Buf), WF b → b.cap = cap →
    WF (runOps b ops) ∧ (runOps b ops).cap = cap ∧
    absQ (runOps b ops) = ops.foldl (fun q op => absStep q cap op) (absQ b) := by
  intro ops
  induction ops with
  | nil => intro b hwf hcap; exact ⟨hwf, hcap, rfl⟩
  | cons op rest ih =>
    intro b hwf hcap
    have h1 := runOp_WF b op hwf
    have h2 : (runOp b op).cap = cap := by rw [runOp_cap]; exact hcap
    obtain ⟨ha, hb2, hc2⟩ := ih (runOp b op) h1 h2
    refine ⟨ha, hb2, ?_⟩
    show absQ (runOps (runOp b op) rest) = _
    rw [hc2, runOp_absQ b op hwf, hcap]
    rfl

/- ### Retained-suffix bookkeeping -/

theorem retained_length (c : Nat) (l : List (Int × Nat)) :
    (retained c l).length = l.length - (l.length - c) := by
  unfold retained
  rw [List.length_drop]

theorem retained_append_single (c : Nat) (hc : 0 < c) (l : List (Int × Nat)) (x : Int × Nat) :
    (if (retained c l).length = c then (retained c l).drop 1 else retained c l) ++ [x]
      = retained c (l ++ [x]) := by
  have hlen := retained_length c l
  by_cases hge : c ≤ l.length
  · rw [if_pos (by omega)]
    unfold retained
    rw [List.drop_drop, List.length_append, List.length_cons, List.length_nil,
      List.drop_append_of_le_length (by omega)]
    congr 2
    omega
  · rw [if_neg (by omega)]
    unfold retained
    rw [List.length_append, List.length_cons, List.length_nil,
      show l.length - c = 0 from by omega, show l.length + (0 + 1) - c = 0 from by omega,
      List.drop_zero, List.drop_zero]

theorem foldl_absStep_retained (cap : Nat) (hc : 0 < cap) :
    ∀ (ops : List Op) (vs : List (Int × Nat)),
    List.foldl (fun q op => absStep q cap op) (retained cap vs) ops
      = retained cap (vs ++ pushedVals ops) := by
  intro ops
  induction ops with
  | nil =>
    intro vs
    show retained cap vs = retained cap (vs ++ pushedVals [])
    rw [show pushedVals [] = [] from rfl, List.append_nil]
  | cons op rest ih =>
    intro vs
    rw [List.foldl_cons]
    cases op with
    | push v t =>
      rw [show absStep (retained cap vs) cap (Op.push v t)
          = retained cap (vs ++ [(v, t)]) from retained_append_single cap hc vs (v, t)]
      rw [ih (vs ++ [(v, t)])]
      rw [show pushedVals (Op.push v t :: rest) = (v, t) :: pushedVals rest from rfl]
      rw [List.append_assoc]
      rfl
    | median => exact ih vs
    | medianAverageDefault => exact ih vs
    | medianAverage d => exact ih vs
    | meanAbsoluteDeviationAroundMedianAverage d => exact ih vs

/- ### Popping many items -/

theorem isEmpty_true_of_count_zero (b : Buf) (hwf : WF b) (h : getCount b = 0) :
    isEmpty b = true := by
  by_cases he : isEmpty b = true
  · exact he
  · have hne : isEmpty b = false := by revert he; cases isEmpty b <;> simp
    have := getCount_pos b hwf hne
    omega

theorem popMany_spec : ∀ (n : Nat) (b : Buf), WF b → n ≤ getCount b →
    (popMany n b).1 = ((absQ b).take n).map Prod.fst ∧ WF (popMany n b).2 ∧
    absQ (popMany n b).2 = (absQ b).drop n := by
  intro n
  induction n with
  | zero => intro b hwf h; exact ⟨rfl, hwf, by rw [List.drop_zero]; rfl⟩
  | succ m ih =>
    intro b hwf h
    have hpos : 0 < getCount b := by omega
    have hne : isEmpty b = false := isEmpty_false_of_count_pos b hpos
    have hw2 : WF (pop b).2 := pop_WF b hwf hne
    have hc2 : getCount (pop b).2 = getCount b - 1 := getCount_pop b hwf hne
    obtain ⟨ih1, ih2, ih3⟩ := ih (pop b).2 hw2 (by omega)
    have hlenabs : 0 < (absQ b).length := by rw [absQ_length]; omega
    obtain ⟨p, rest, heq⟩ : ∃ p rest, absQ b = p :: rest := by
      cases habs : absQ b with
      | nil => rw [habs] at hlenabs; simp at hlenabs
      | cons p rest => exact ⟨p, rest, rfl⟩
    refine ⟨?_, ih2, ?_⟩
    · show (pop b).1 :: (popMany m (pop b).2).1 = ((absQ b).take (m + 1)).map Prod.fst
      rw [pop_val_absQ b hwf hne, ih1, absQ_pop b hwf hne, heq]
      rfl
    · show absQ (popMany m (pop b).2).2 = (absQ b).drop (m + 1)
      rw [ih3, absQ_pop b hwf hne, List.drop_drop]
      congr 1
      omega

/- ### The initial buffer -/

theorem WF_mkBuf (cap : Nat) (hc : 0 < cap) : WF (mkBuf cap) := by
  refine ⟨by simp [mkBuf], hc, hc, hc, ?_⟩
  intro h
  exact absurd h (by simp [mkBuf])

theorem absQ_mkBuf (cap : Nat) : absQ (mkBuf cap) = [] := rfl

theorem pushAll_eq_runOps (l : List (Int × Nat)) : ∀ (b : Buf),
    pushAll b l = runOps b (l.map (fun p => Op.push p.1 p.2)) := by
  induction l with
  | nil => intro b; rfl
  | cons x xs ih =>
    intro b
    show pushAll (push b x.1 x.2) xs = runOps (push b x.1 x.2) (xs.map _)
    exact ih (push b x.1 x.2)

theorem pushedVals_map_push (l : List (Int × Nat)) :
    pushedVals (l.map (fun p => Op.push p.1 p.2)) = l := by
  induction l with
  | nil => rfl
  | cons x xs ih =>
    show (x.1, x.2) :: pushedVals (xs.map _) = x :: xs
    rw [ih]

theorem runOps_retained (cap : Nat) (hcap : 0 < cap) (ops : List Op) :
    WF (runOps (mkBuf cap) ops) ∧ (runOps (mkBuf cap) ops).cap = cap ∧
    absQ (runOps (mkBuf cap) ops) = retained cap (pushedVals ops) := by
  obtain ⟨hwf, hcp, habs⟩ := runOps_absQ cap ops (mkBuf cap) (WF_mkBuf cap hcap) rfl
  refine ⟨hwf, hcp, ?_⟩
  rw [habs, absQ_mkBuf]
  have h := foldl_absStep_retained cap hcap ops []
  rw [show retained cap ([] : List (Int × Nat)) = [] from by
    unfold retained; exact List.drop_nil] at h
  rw [h]
  rfl

/- ### Claim C1 -/

/-- Claim C1: FIFO order preservation.  For every capacity, every sequence of
operations consisting of pushes and order-statistic calls (`median`,
`medianAverage` in both arities, `meanAbsoluteDeviationAroundMedianAverage` —
each of which restores the live window before returning), and every
`n` not exceeding the number of retained items, the first `n` popped values
equal the values of the `n` oldest retained pushed items, in insertion
order. -/
theorem fifo_order_preservation (cap : Nat) (hcap : 0 < cap) (ops : List Op) (n : Nat)
    (hn : n ≤ min cap (pushedVals ops).length) :
    (popMany n (runOps (mkBuf cap) ops)).1
      = ((retained cap (pushedVals ops)).take n).map Prod.fst := by
  obtain ⟨hwf, hcp, habs⟩ := runOps_retained cap hcap ops
  have hcount : getCount (runOps (mkBuf cap) ops) = (retained cap (pushedVals ops)).length := by
    rw [← absQ_length, habs]
  have hlen := retained_length cap (pushedVals ops)
  obtain ⟨h1, _h2, _h3⟩ := popMany_spec n (runOps (mkBuf cap) ops) hwf (by omega)
  rw [h1, habs]

/-- Witness for C1: capacity 2; pushes of 1, 2, 3 with a `median()` call and a
`medianAverage(1)` call interleaved; the two retained items are the pushes of
2 and 3, and two pops return exactly [2, 3]. -/
theorem fifo_order_preservation_witness :
    0 < 2
    ∧ 2 ≤ min 2 (pushedVals [Op.push 1 10, Op.push 2 20, Op.median,
        Op.push 3 30, Op.medianAverage 1]).length
    ∧ (popMany 2 (runOps (mkBuf 2) [Op.push 1 10, Op.push 2 20, Op.median,
        Op.push 3 30, Op.medianAverage 1])).1
      = ((retained 2 (pushedVals [Op.push 1 10, Op.push 2 20, Op.median,
        Op.push 3 30, Op.medianAverage 1])).take 2).map Prod.fst
    ∧ (popMany 2 (runOps (mkBuf 2) [Op.push 1 10, Op.push 2 20, Op.median,
        Op.push 3 30, Op.medianAverage 1])).1 = [2, 3] :=
  ⟨by decide, by decide,
    fifo_order_preservation 2 (by decide) [Op.push 1 10, Op.push 2 20, Op.median,
      Op.push 3 30, Op.medianAverage 1] 2 (by decide),
    by decide⟩

/- ### Claim C5 -/

/-- Claim C5: capacity overwrite.  Pushing `cap + k` items (`k ≥ 1`,
`1 ≤ cap ≤ 255`) into a fresh buffer of capacity `cap` silently overwrites the
first `k` items: exactly the most recent `cap` pushed values are retrievable
by successive pops, oldest of those first, and the buffer is then empty. -/
theorem capacity_overwrite (cap k : Nat) (hcap1 : 1 ≤ cap) (hcap2 : cap ≤ 255)
    (hk : 1 ≤ k) (vs : List (Int × Nat)) (hlen : vs.length = cap + k) :
    (popMany cap (pushAll (mkBuf cap) vs)).1 = (vs.drop k).map Prod.fst
    ∧ isEmpty (popMany cap (pushAll (mkBuf cap) vs)).2 = true := by
  rw [pushAll_eq_runOps]
  obtain ⟨hwf, hcp, habs⟩ := runOps_retained cap (by omega) (vs.map (fun p => Op.push p.1 p.2))
  rw [pushedVals_map_push] at habs
  have hret : retained cap vs = vs.drop k := by
    unfold retained
    congr 1
    omega
  have hcount : getCount (runOps (mkBuf cap) (vs.map (fun p => Op.push p.1 p.2))) = cap := by
    rw [← absQ_length, habs, hret, List.length_drop]
    omega
  obtain ⟨h1, h2, h3⟩ := popMany_spec cap
    (runOps (mkBuf cap) (vs.map (fun p => Op.push p.1 p.2))) hwf (by omega)
  constructor
  · rw [h1, habs, hret, List.take_of_length_le (by rw [List.length_drop]; omega)]
  · refine isEmpty_true_of_count_zero _ h2 ?_
    rw [← absQ_length, h3, List.length_drop, habs, hret, List.length_drop]
    omega

/-- Witness for C5: capacity 2, three pushes of values 7, 8, 9; the pops
return [8, 9] (value 7 was overwritten) and the buffer ends empty. -/
theorem capacity_overwrite_witness :
    (popMany 2 (pushAll (mkBuf 2) [(7, 0), (8, 1), (9, 2)])).1 = [8, 9]
    ∧ isEmpty (popMany 2 (pushAll (mkBuf 2) [(7, 0), (8, 1), (9, 2)])).2 = true := by
  have h := capacity_overwrite 2 1 (by decide) (by decide) (by decide)
    [(7, 0), (8, 1), (9, 2)] (by decide)
  exact ⟨by rw [h.1]; decide, h.2⟩

/- ### Claim C6 -/

theorem sortToValues_empty (b : Buf) (len : Nat) (he : isEmpty b = true) :
    sortToValues b len = b := by
  unfold sortToValues
  rw [if_pos he]

theorem sortToInsertSequence_empty (b : Buf) (he : isEmpty b = true) :
    sortToInsertSequence b = b := by
  unfold sortToInsertSequence
  rw [if_pos he]

/-- Claim C6 (code bug): on an empty buffer, `pop()`, `median()` and
`average()` do return the default/zero value and leave the state unchanged
(`isEmpty()` remains true), as the claim states.  `peek()`, however, reaches
the undefined-behaviour path: `getItemAtPositionPtr` returns a pointer to the
block-scoped local `emptyItem` after its lifetime has ended, and `peek()`
dereferences that dangling pointer — modelled by the final conjunct, which
evaluates the dereference behind `peek()` on the empty buffer to the error
result `none` instead of a defined default. -/
theorem empty_buffer_defaults_bug (b : Buf) (he : isEmpty b = true) :
    pop b = (0, b) ∧ median b = (0, b) ∧ average b = 0
    ∧ isEmpty (pop b).2 = true ∧ isEmpty (median b).2 = true
    ∧ getItemAtPositionPtrDeref b 0 = none := by
  have h0 : getCount b = 0 := getCount_empty b he
  have hpop : pop b = (0, b) := by
    unfold pop
    rw [if_pos he]
  have hmed : median b = (0, b) := by
    show (_median (sortToValues b (getCount b)).tail (getCount (sortToValues b (getCount b)))
        (sortToValues b (getCount b)).items (sortToValues b (getCount b)).cap getItemValue,
      sortToInsertSequence (sortToValues b (getCount b))) = (0, b)
    rw [sortToValues_empty b (getCount b) he, sortToInsertSequence_empty b he, h0]
    unfold _median
    rw [if_pos rfl]
  refine ⟨hpop, hmed, ?_, ?_, ?_, ?_⟩
  · show _average b.tail (getCount b) b.items b.cap getItemValue = 0
    rw [h0]
    rfl
  · rw [hpop]
    exact he
  · rw [hmed]
    exact he
  · unfold getItemAtPositionPtrDeref
    rw [if_pos he]

/-- Witness for C6: a freshly constructed buffer of capacity 3 is empty;
pop/median/average return the zero default leaving it empty, and the
dereference behind `peek()` takes the undefined-behaviour path. -/
theorem empty_buffer_defaults_bug_witness :
    isEmpty (mkBuf 3) = true
    ∧ (pop (mkBuf 3) = (0, mkBuf 3) ∧ median (mkBuf 3) = (0, mkBuf 3)
        ∧ average (mkBuf 3) = 0 ∧ isEmpty (pop (mkBuf 3)).2 = true
        ∧ isEmpty (median (mkBuf 3)).2 = true
        ∧ getItemAtPositionPtrDeref (mkBuf 3) 0 = none) :=
  ⟨by decide, empty_buffer_defaults_bug (mkBuf 3) (by decide)⟩

/- ### Claim C8 -/

/-- Claim C8: `deleteOld(currentTimeStamp, interval)`.  On an empty buffer it
returns false and changes nothing.  On a non-empty buffer it pops the oldest
item and returns true exactly when `(currentTimeStamp - peekTime()) <
interval` under unsigned time arithmetic — the literal delete-if-within-
interval comparison of the source — and otherwise returns false with the
buffer unchanged. -/
theorem deleteOld_literal_semantics (b : Buf) (now interval : Nat) (hwf : WF b) :
    (isEmpty b = true → deleteOld b now interval = (false, b))
    ∧ (isEmpty b = false →
        ((deleteOld b now interval).1 = true
            ↔ tsub now (((window b).getD 0 default).time) < interval)
        ∧ (tsub now (((window b).getD 0 default).time) < interval →
            (deleteOld b now interval).2 = (pop b).2
            ∧ absQ (deleteOld b now interval).2 = (absQ b).drop 1)
        ∧ (¬ tsub now (((window b).getD 0 default).time) < interval →
            (deleteOld b now interval).2 = b)) := by
  constructor
  · intro he
    unfold deleteOld
    rw [if_pos he]
  · intro hne
    have hpt : peekTime b = ((window b).getD 0 default).time := by
      unfold peekTime
      rw [getItemAtPositionPtr_eq b 0 hne hwf.2.2.2.1,
        window_getD b 0 (getCount_pos b hwf hne)]
    have hdel : deleteOld b now interval
        = if tsub now (peekTime b) < interval then (true, (pop b).2) else (false, b) := by
      unfold deleteOld
      rw [if_neg (by simp [hne])]
    refine ⟨?_, ?_, ?_⟩
    · rw [hdel, hpt]
      by_cases hc : tsub now (((window b).getD 0 default).time) < interval
      · rw [if_pos hc]
        exact iff_of_true rfl hc
      · rw [if_neg hc]
        exact iff_of_false (by simp) hc
    · intro hc
      rw [hdel, hpt, if_pos hc]
      exact ⟨rfl, absQ_pop b hwf hne⟩
    · intro hc
      rw [hdel, hpt, if_neg hc]

/-- Witness for C8: one item pushed at time 100; at `now = 105` with
`interval = 10`, the unsigned difference 5 is within the interval, so the item
is deleted and the call returns true. -/
theorem deleteOld_literal_semantics_witness :
    WF (pushAll (mkBuf 2) [(1, 100)])
    ∧ isEmpty (pushAll (mkBuf 2) [(1, 100)]) = false
    ∧ ((deleteOld (pushAll (mkBuf 2) [(1, 100)]) 105 10).1 = true
        ↔ tsub 105 (((window (pushAll (mkBuf 2) [(1, 100)])).getD 0 default).time) < 10)
    ∧ (deleteOld (pushAll (mkBuf 2) [(1, 100)]) 105 10).1 = true :=
  ⟨by decide, by decide,
    ((deleteOld_literal_semantics (pushAll (mkBuf 2) [(1, 100)]) 105 10 (by decide)).2
      (by decide)).1,
    by decide⟩

/- ### Claim C2 -/

theorem getCount_sortToValues (b : Buf) (len : Nat) :
    getCount (sortToValues b len) = getCount b :=
  getCount_of_fields (sortToValues_cap b len) (sortToValues_head b len)
    (sortToValues_tail b len) (sortToValues_isFull b len)

theorem value_getD_map (l : List ItemQ) (n : Nat) :
    (l.map ItemQ.value).getD n 0 = (l.getD n default).value := by
  rcases Nat.lt_or_ge n l.length with h | h
  · rw [List.getD_eq_getElem _ _ (by rw [List.length_map]; omega),
      List.getD_eq_getElem _ _ h, List.getElem_map]
  · rw [List.getD_eq_getElem?_getD, List.getD_eq_getElem?_getD,
      List.getElem?_eq_none (by rw [List.length_map]; omega), List.getElem?_eq_none h]
    rfl

/-- The value projection of the source's insertion sort is the sorted value
list: it is a sorted permutation of the input's values, and sorted
permutations of an integer list are unique. -/
theorem sortC_map_value (l : List ItemQ) :
    (insertionSortC getItemValue l).map ItemQ.value
      = List.insertionSort (fun x y : Int => x ≤ y) (l.map ItemQ.value) := by
  apply List.eq_of_perm_of_sorted (r := fun x y : Int => x ≤ y)
  · have h1 := (perm_insertionSortC getItemValue l).map ItemQ.value
    exact h1.trans (List.perm_insertionSort _ _).symm
  · exact (List.pairwise_map).2 (pairwise_insertionSortC getItemValue l)
  · exact List.sorted_insertionSort _ _

/-- The value picked by `median()` on a non-empty buffer: the element at
logical index `getCount / 2` of the value-sorted window (for one live item
the source picks index 0, which coincides with `1 / 2`). -/
theorem median_val (b : Buf) (hwf : WF b) (hpos : 0 < getCount b) :
    (median b).1 = ((insertionSortC getItemValue (tagFrom 0 (window b))).getD
      (getCount b / 2) default).value := by
  have hne : isEmpty b = false := isEmpty_false_of_count_pos b hpos
  show _median (sortToValues b (getCount b)).tail (getCount (sortToValues b (getCount b)))
      (sortToValues b (getCount b)).items (sortToValues b (getCount b)).cap getItemValue = _
  rw [getCount_sortToValues]
  have hwin := window_sortToValues b (getCount b) hwf hne le_rfl
  rw [List.take_of_length_le (by rw [tagFrom_length, window_length]),
    List.drop_eq_nil_of_le (by rw [tagFrom_length, window_length]), List.append_nil] at hwin
  unfold _median
  rw [if_neg (by omega)]
  by_cases h1 : getCount b = 1
  · rw [if_pos h1]
    have hg := window_getD (sortToValues b (getCount b)) 0
      (by rw [getCount_sortToValues]; omega)
    rw [← hg, hwin, h1]
    rfl
  · rw [if_neg h1]
    have hidx : getCount b / 2 < getCount b := Nat.div_lt_self (by omega) (by omega)
    have hg := window_getD (sortToValues b (getCount b)) (getCount b / 2)
      (by rw [getCount_sortToValues]; omega)
    rw [← hg, hwin]
    rfl

/-- Claim C2: `median()` returns the default for an empty buffer, the single
stored value for one live item, and for two or more live items the value at
logical index `len / 2` of the live window sorted by value (the upper-middle
element for even lengths), which is always a member of the live values —
never a synthesized average. -/
theorem median_exactness (b : Buf) (hwf : WF b) :
    (getCount b = 0 → (median b).1 = 0)
    ∧ (getCount b = 1 → (median b).1 = ((window b).getD 0 default).value)
    ∧ (2 ≤ getCount b →
        (median b).1
          = (List.insertionSort (fun x y : Int => x ≤ y) ((window b).map ItemQ.value)).getD
              (getCount b / 2) 0
        ∧ (median b).1 ∈ (window b).map ItemQ.value) := by
  have hsortlen : (insertionSortC getItemValue (tagFrom 0 (window b))).length = getCount b := by
    rw [(perm_insertionSortC _ _).length_eq, tagFrom_length, window_length]
  refine ⟨?_, ?_, ?_⟩
  · intro h0
    have he : isEmpty b = true := isEmpty_true_of_count_zero b hwf h0
    show _median (sortToValues b (getCount b)).tail (getCount (sortToValues b (getCount b)))
        (sortToValues b (getCount b)).items (sortToValues b (getCount b)).cap getItemValue = 0
    rw [sortToValues_empty b (getCount b) he, h0]
    unfold _median
    rw [if_pos rfl]
  · intro h1
    rw [median_val b hwf (by omega)]
    obtain ⟨x, hx⟩ : ∃ x, window b = [x] := by
      have hlen : (window b).length = 1 := by rw [window_length, h1]
      cases hw : window b with
      | nil => rw [hw] at hlen; simp at hlen
      | cons a l =>
        cases l with
        | nil => exact ⟨a, rfl⟩
        | cons a2 l2 => rw [hw] at hlen; simp at hlen
    rw [h1, hx]
    rfl
  · intro h2
    have hidx : getCount b / 2 < getCount b := Nat.div_lt_self (by omega) (by omega)
    constructor
    · rw [median_val b hwf (by omega)]
      rw [← value_getD_map (insertionSortC getItemValue (tagFrom 0 (window b)))
        (getCount b / 2)]
      rw [sortC_map_value, tagFrom_map_value]
    · rw [median_val b hwf (by omega)]
      have hmem : (insertionSortC getItemValue (tagFrom 0 (window b))).getD
          (getCount b / 2) default ∈ insertionSortC getItemValue (tagFrom 0 (window b)) := by
        rw [List.getD_eq_getElem _ _ (by rw [hsortlen]; omega)]
        exact List.getElem_mem _
      have hmem2 := List.mem_map_of_mem ItemQ.value hmem
      have h3 : ((insertionSortC getItemValue (tagFrom 0 (window b))).map ItemQ.value).Perm
          ((window b).map ItemQ.value) := by
        have hp := (perm_insertionSortC getItemValue (tagFrom 0 (window b))).map ItemQ.value
        rw [tagFrom_map_value] at hp
        exact hp
      exact h3.mem_iff.1 hmem2

/-- Witness for C2: the spec's example — buffer [5, 1, 9, 3, 7] of capacity 5;
the median is 5, the middle of the sorted values [1, 3, 5, 7, 9], an exact
original sample. -/
theorem median_exactness_witness :
    WF (pushAll (mkBuf 5) [(5, 0), (1, 1), (9, 2), (3, 3), (7, 4)])
    ∧ 2 ≤ getCount (pushAll (mkBuf 5) [(5, 0), (1, 1), (9, 2), (3, 3), (7, 4)])
    ∧ (median (pushAll (mkBuf 5) [(5, 0), (1, 1), (9, 2), (3, 3), (7, 4)])).1
        ∈ (window (pushAll (mkBuf 5) [(5, 0), (1, 1), (9, 2), (3, 3), (7, 4)])).map ItemQ.value
    ∧ (median (pushAll (mkBuf 5) [(5, 0), (1, 1), (9, 2), (3, 3), (7, 4)])).1 = 5 :=
  ⟨by decide, by decide,
    ((median_exactness (pushAll (mkBuf 5) [(5, 0), (1, 1), (9, 2), (3, 3), (7, 4)])
      (by decide)).2.2 (by decide)).2,
    by decide⟩

/- ### Claim C4 -/

theorem intervalsList_length : ∀ (w : List ItemQ), (intervalsList w).length = w.length
  | [] => rfl
  | [_] => rfl
  | x :: y :: xs => by
    rw [intervalsList]
    show (intervalsList (y :: xs)).length + 1 = (x :: y :: xs).length
    rw [intervalsList_length (y :: xs)]
    rfl

theorem deltasOf_length : ∀ (w : List ItemQ), (deltasOf w).length = w.length - 1
  | [] => rfl
  | [_] => rfl
  | x :: y :: xs => by
    rw [deltasOf]
    show (deltasOf (y :: xs)).length + 1 = (x :: y :: xs).length - 1
    rw [deltasOf_length (y :: xs)]
    simp only [List.length_cons]
    omega

theorem intervalsList_map_value : ∀ (w : List ItemQ), w ≠ [] →
    (intervalsList w).map ItemQ.value = deltasOf w ++ [0]
  | [], h => absurd rfl h
  | [_], _ => rfl
  | x :: y :: xs, _ => by
    rw [intervalsList, deltasOf, List.map_cons, intervalsList_map_value (y :: xs) (by simp)]
    rfl

theorem intervalsToValues_fields (b : Buf) :
    (intervalsToValues b).cap = b.cap ∧ (intervalsToValues b).head = b.head ∧
    (intervalsToValues b).tail = b.tail ∧ (intervalsToValues b).isFull = b.isFull ∧
    (intervalsToValues b).items.length = b.items.length := by
  unfold intervalsToValues
  split
  · exact ⟨rfl, rfl, rfl, rfl, rfl⟩
  · split
    · exact ⟨rfl, rfl, rfl, rfl, rfl⟩
    · refine ⟨rfl, rfl, rfl, rfl, ?_⟩
      show (writeWin b.items b.tail b.cap 0 (intervalsList (window b))).length = b.items.length
      exact writeWin_length ..

theorem WF_intervalsToValues (b : Buf) (hwf : WF b) : WF (intervalsToValues b) := by
  have h := intervalsToValues_fields b
  exact WF_of_fields hwf h.1 h.2.1 h.2.2.1 h.2.2.2.1 h.2.2.2.2

theorem getCount_intervalsToValues (b : Buf) :
    getCount (intervalsToValues b) = getCount b := by
  have h := intervalsToValues_fields b
  exact getCount_of_fields h.1 h.2.1 h.2.2.1 h.2.2.2.1

theorem isEmpty_intervalsToValues (b : Buf) :
    isEmpty (intervalsToValues b) = isEmpty b := by
  have h := intervalsToValues_fields b
  exact isEmpty_of_fields h.2.1 h.2.2.1 h.2.2.2.1

theorem window_intervalsToValues (b : Buf) (hwf : WF b)
    (hfl : b.valuesAreGoodIntervals = false) (h2 : 2 ≤ getCount b) :
    window (intervalsToValues b) = intervalsList (window b) := by
  have h1 : ¬ (b.valuesAreGoodIntervals = true) := by simp [hfl]
  have h2' : ¬ (getCount b < 2) := by omega
  unfold intervalsToValues
  rw [if_neg h1, if_neg h2']
  show readWin b.tail (getCount b)
    (writeWin b.items b.tail b.cap 0 (intervalsList (window b))) b.cap = _
  have hlen : (intervalsList (window b)).length = getCount b := by
    rw [intervalsList_length, window_length]
  have key := readWin_writeWin b.tail b.cap hwf.2.1 b.items (intervalsList (window b)) hwf.1
    (by rw [hlen]; exact getCount_le_cap b hwf)
  rw [hlen] at key
  exact key

/-- The value returned by `medianInterval()` on a buffer with `count ≥ 2` live
items and no cached intervals: the element at index `(count - 1) / 2` of the
sorted list of the `count - 1` genuine inter-arrival deltas — the manufactured
trailing zero is excluded from both the sort range and the median pick. -/
theorem medianInterval_val (b : Buf) (hwf : WF b)
    (hfl : b.valuesAreGoodIntervals = false) (h2 : 2 ≤ getCount b) :
    (medianInterval b).1
      = (List.insertionSort (fun x y : Int => x ≤ y) (deltasOf (window b))).getD
          ((getCount b - 1) / 2) 0 := by
  have hnlt : ¬ (getCount b < 2) := by omega
  have hwf1 : WF (intervalsToValues b) := WF_intervalsToValues b hwf
  have hc1 : getCount (intervalsToValues b) = getCount b := getCount_intervalsToValues b
  have hne1 : isEmpty (intervalsToValues b) = false := by
    rw [isEmpty_intervalsToValues]
    exact isEmpty_false_of_count_pos b (by omega)
  have hwnil : window b ≠ [] := by
    intro hcontra
    have hx := window_length b
    rw [hcontra] at hx
    simp at hx
    omega
  have hstep : (medianInterval b).1
      = _median (sortToValues (intervalsToValues b) (getCount b - 1)).tail (getCount b - 1)
          (sortToValues (intervalsToValues b) (getCount b - 1)).items
          (sortToValues (intervalsToValues b) (getCount b - 1)).cap getItemValue := by
    unfold medianInterval
    rw [if_neg hnlt]
  rw [hstep]
  have hwin2 := window_sortToValues (intervalsToValues b) (getCount b - 1) hwf1 hne1
    (by omega)
  set b2 := sortToValues (intervalsToValues b) (getCount b - 1) with hb2
  have hcnt2 : getCount b2 = getCount b := by rw [hb2, getCount_sortToValues, hc1]
  have hidx : (getCount b - 1) / 2 < getCount b - 1 := Nat.div_lt_self (by omega) (by omega)
  have hval : _median b2.tail (getCount b - 1) b2.items b2.cap getItemValue
      = (b2.items.getD (getTruePos ((getCount b - 1) / 2) b2.tail b2.cap) default).value := by
    unfold _median
    rw [if_neg (by omega)]
    by_cases hone : getCount b - 1 = 1
    · rw [if_pos hone, hone]
      rfl
    · rw [if_neg hone]
      rfl
  rw [hval]
  rw [← window_getD b2 ((getCount b - 1) / 2) (by omega)]
  rw [hwin2]
  have hplen : (insertionSortC getItemValue
      ((tagFrom 0 (window (intervalsToValues b))).take (getCount b - 1))).length
      = getCount b - 1 := by
    rw [(perm_insertionSortC _ _).length_eq, List.length_take, tagFrom_length, window_length,
      hc1]
    omega
  rw [getD_append_lt _ _ _ (by rw [hplen]; omega)]
  rw [← value_getD_map]
  rw [sortC_map_value]
  have hlist : ((tagFrom 0 (window (intervalsToValues b))).take (getCount b - 1)).map
      ItemQ.value = deltasOf (window b) := by
    rw [List.map_take]
    rw [show ((tagFrom 0 (window (intervalsToValues b))).map ItemQ.value)
        = (window (intervalsToValues b)).map ItemQ.value from tagFrom_map_value _ 0]
    rw [window_intervalsToValues b hwf hfl h2]
    rw [intervalsList_map_value _ hwnil]
    rw [show getCount b - 1 = (deltasOf (window b)).length from
      by rw [deltasOf_length, window_length]]
    exact List.take_left ..
  rw [hlist]

/-- Claim C4: interval statistics operate only over the `count - 1` genuine
inter-arrival deltas.  `intervalsToValues` writes the deltas into the oldest
`count - 1` items and a manufactured 0 into the newest; `medianInterval`
sorts and takes the median of the genuine deltas only, excluding the trailing
zero. -/
theorem interval_statistics_exclude_trailing_sentinel (b : Buf) (hwf : WF b)
    (hfl : b.valuesAreGoodIntervals = false) (h2 : 2 ≤ getCount b) :
    (window (intervalsToValues b)).map ItemQ.value = deltasOf (window b) ++ [0]
    ∧ (deltasOf (window b)).length = getCount b - 1
    ∧ (medianInterval b).1
        = (List.insertionSort (fun x y : Int => x ≤ y) (deltasOf (window b))).getD
            ((getCount b - 1) / 2) 0 := by
  have hwnil : window b ≠ [] := by
    intro hcontra
    have hx := window_length b
    rw [hcontra] at hx
    simp at hx
    omega
  refine ⟨?_, ?_, medianInterval_val b hwf hfl h2⟩
  · rw [window_intervalsToValues b hwf hfl h2, intervalsList_map_value _ hwnil]
  · rw [deltasOf_length, window_length]

/-- Witness for C4: the spec's example — four items pushed at timestamps
[0, 10, 25, 40]; the deltas are [10, 15, 15] (trailing slot manufactured 0)
and `medianInterval()` returns exactly 15. -/
theorem interval_statistics_exclude_trailing_sentinel_witness :
    ((window (intervalsToValues (pushAll (mkBuf 5)
        [(0, 0), (0, 10), (0, 25), (0, 40)]))).map ItemQ.value
      = deltasOf (window (pushAll (mkBuf 5) [(0, 0), (0, 10), (0, 25), (0, 40)])) ++ [0])
    ∧ deltasOf (window (pushAll (mkBuf 5) [(0, 0), (0, 10), (0, 25), (0, 40)]))
        = [10, 15, 15]
    ∧ (window (intervalsToValues (pushAll (mkBuf 5)
        [(0, 0), (0, 10), (0, 25), (0, 40)]))).map ItemQ.value = [10, 15, 15, 0]
    ∧ (medianInterval (pushAll (mkBuf 5) [(0, 0), (0, 10), (0, 25), (0, 40)])).1 = 15 :=
  ⟨(interval_statistics_exclude_trailing_sentinel
      (pushAll (mkBuf 5) [(0, 0), (0, 10), (0, 25), (0, 40)])
      (by decide) (by decide) (by decide)).1,
    by decide, by decide, by decide⟩

/- ### Claim C10 -/

/-- Claim C10: `frequencyOfValue` divides the occurrence count by `getCount()`
with no emptiness guard.  For every non-empty well-formed buffer the divisor
is nonzero and the result is `occurenceOfValue / getCount`; on an empty
buffer the divisor `getCount()` is zero, so non-emptiness is a necessary
precondition. -/
theorem frequencyOfValue_nonempty_guard (b : Buf) (testValue epsilon : Int) (hwf : WF b) :
    (isEmpty b = false →
      (getCount b : ℚ) ≠ 0
      ∧ frequencyOfValue b testValue epsilon
          = (occurenceOfValue b testValue epsilon : ℚ) / (getCount b : ℚ))
    ∧ (isEmpty b = true → getCount b = 0) := by
  constructor
  · intro hne
    have hpos := getCount_pos b hwf hne
    refine ⟨?_, rfl⟩
    exact_mod_cast Nat.pos_iff_ne_zero.1 hpos
  · exact getCount_empty b

/- ### Claim C3 -/

/-- Claim C3 (code bug): with an even live length 2 and
`maxDistanceFromMedian = 1` (which the clamp `maxDistanceFromMedian ≤ len / 2`
allows), `_medianAverage` computes `startpos = len/2 - maxDistanceFromMedian -
evenNumCorrection = -1`, which wraps to 255 as a `uint8_t`; the averaging loop
then reads the logical window indices [255, 0, 1, 2], of which 255 and 2 lie
outside the live window `[0, 2)`.  On a capacity-3 buffer holding [10, 20]
the loop therefore reads the dead slot (whose value 0 was never pushed) and
returns 10 instead of an average over the claimed symmetric window. -/
theorem medianAverage_reads_outside_window :
    maLogicalPositions 2 1 = [255, 0, 1, 2]
    ∧ ¬ (∀ p ∈ maLogicalPositions 2 1, p < 2)
    ∧ getCount (pushAll (mkBuf 3) [(10, 0), (20, 0)]) = 2
    ∧ (window (pushAll (mkBuf 3) [(10, 0), (20, 0)])).map ItemQ.value = [10, 20]
    ∧ (medianAverage (pushAll (mkBuf 3) [(10, 0), (20, 0)]) 1).1 = 10 := by
  refine ⟨by decide, by decide, by decide, by decide, ?_⟩
  have hb1 : sortToValues (pushAll (mkBuf 3) [(10, 0), (20, 0)])
      (getCount (pushAll (mkBuf 3) [(10, 0), (20, 0)])) = c3Sorted := by decide
  show _medianAverage (sortToValues (pushAll (mkBuf 3) [(10, 0), (20, 0)])
      (getCount (pushAll (mkBuf 3) [(10, 0), (20, 0)]))).tail
    (getCount (sortToValues (pushAll (mkBuf 3) [(10, 0), (20, 0)])
      (getCount (pushAll (mkBuf 3) [(10, 0), (20, 0)]))))
    1
    (sortToValues (pushAll (mkBuf 3) [(10, 0), (20, 0)])
      (getCount (pushAll (mkBuf 3) [(10, 0), (20, 0)]))).items
    (sortToValues (pushAll (mkBuf 3) [(10, 0), (20, 0)])
      (getCount (pushAll (mkBuf 3) [(10, 0), (20, 0)]))).cap getItemValue = 10
  rw [hb1]
  show _medianAverage 0 (getCount c3Sorted) 1 c3Items 3 getItemValue = 10
  rw [show getCount c3Sorted = 2 from by decide]
  unfold _medianAverage
  rw [if_neg (by decide), if_neg (by decide)]
  rw [show maLogicalPositions 2 1 = [255, 0, 1, 2] from by decide]
  simp only [List.map_cons, List.map_nil]
  rw [show getItemValue (c3Items.getD (getTruePos 255 0 3) default) = 10 from by decide,
    show getItemValue (c3Items.getD (getTruePos 0 0 3) default) = 10 from by decide,
    show getItemValue (c3Items.getD (getTruePos 1 0 3) default) = 20 from by decide,
    show getItemValue (c3Items.getD (getTruePos 2 0 3) default) = 0 from by decide]
  norm_num [runAvgAux]

/- ### Claim C7 -/

/-- Claim C7 (amended): each rate-of-change operation — `medianRateOfChange`,
`averageRateOfChange`, `medianAverageRateOfChange` — returns the default 0
and leaves the buffer unchanged when fewer than 2 items are live.  (The
length check does not, however, rule out a zero-valued divisor when 2 or more
items are live: see the counterexample with equal timestamps.) -/
theorem rateOfChange_guard_default (b : Buf) (h : getCount b < 2) :
    medianRateOfChange b = (0, b) ∧ averageRateOfChange b = (0, b)
    ∧ ∀ d, medianAverageRateOfChange b d = (0, b) := by
  refine ⟨?_, ?_, ?_⟩
  · unfold medianRateOfChange
    rw [if_pos h]
  · unfold averageRateOfChange
    rw [if_pos h]
  · intro d
    unfold medianAverageRateOfChange
    rw [if_pos h]

/-- Witness for C7 (amended): a fresh capacity-3 buffer has 0 live items, so
all three rate-of-change operations return (0, unchanged buffer). -/
theorem rateOfChange_guard_default_witness :
    getCount (mkBuf 3) < 2
    ∧ (medianRateOfChange (mkBuf 3) = (0, mkBuf 3)
        ∧ averageRateOfChange (mkBuf 3) = (0, mkBuf 3)
        ∧ ∀ d, medianAverageRateOfChange (mkBuf 3) d = (0, mkBuf 3)) :=
  ⟨by decide, rateOfChange_guard_default (mkBuf 3) (by decide)⟩

/-- Claim C7 counterexample: a reachable state — two pushes with the same
timestamp 5 — has 2 live items, so the `getCount() < 2` guard passes, yet
`medianInterval()` evaluates to 0: the division `1 / medianInterval()` in
`medianRateOfChange` has a zero-valued divisor.  The length check therefore
does not guard against zero divisors for every reachable state and timestamp
sequence. -/
theorem rateOfChange_zero_divisor_reachable :
    getCount (pushAll (mkBuf 3) [(7, 5), (9, 5)]) = 2
    ∧ ¬ getCount (pushAll (mkBuf 3) [(7, 5), (9, 5)]) < 2
    ∧ (medianInterval (pushAll (mkBuf 3) [(7, 5), (9, 5)])).1 = 0 := by decide

/- ### Claim C9 -/

theorem absX_eq_abs (x : Int) : absX x = |x| := by
  unfold absX
  split
  · rename_i h
    rw [abs_of_neg h]
    omega
  · rename_i h
    rw [abs_of_nonneg (by omega)]

/-- Claim C9 (amended): at the signed embedding of `T` (`Int` — covering
signed types, floating types, and unsigned types narrower than `int`, which
integer promotion makes signed in `arrayValue - testValue`),
`occurenceOfValue(testValue, epsilon)` counts exactly the live items whose
absolute difference from `testValue` is strictly less than `epsilon`.  (For
unsigned `T` at least as wide as `int` the subtraction wraps and the
characterization fails: see the counterexample.) -/
theorem occurenceOfValue_signed_count (b : Buf) (testValue epsilon : Int) (hwf : WF b) :
    occurenceOfValue b testValue epsilon
      = ((window b).filter (fun it => |it.value - testValue| < epsilon)).length := by
  by_cases he : isEmpty b = true
  · have h0 := getCount_empty b he
    have hwin : window b = [] := by
      have hx := window_length b
      rw [h0] at hx
      exact List.eq_nil_of_length_eq_zero hx
    unfold occurenceOfValue
    rw [h0, hwin]
    rfl
  · have hne : isEmpty b = false := by revert he; cases isEmpty b <;> simp
    unfold occurenceOfValue
    rw [show window b = (List.range (getCount b)).map
        (fun i => b.items.getD (getTruePos i b.tail b.cap) default) from rfl]
    rw [List.filter_map, List.length_map]
    congr 1
    apply List.filter_congr
    intro i _
    rw [getItemAtPositionPtr_eq b i hne hwf.2.2.2.1, absX_eq_abs]
    rfl

/-- Witness for C9 (amended): buffer [1, 5], test value 3, epsilon 3; both
items are within 3 of the test value, and the count is 2. -/
theorem occurenceOfValue_signed_count_witness :
    WF (pushAll (mkBuf 4) [(1, 0), (5, 1)])
    ∧ occurenceOfValue (pushAll (mkBuf 4) [(1, 0), (5, 1)]) 3 3
        = ((window (pushAll (mkBuf 4) [(1, 0), (5, 1)])).filter
            (fun it => |it.value - 3| < 3)).length
    ∧ occurenceOfValue (pushAll (mkBuf 4) [(1, 0), (5, 1)]) 3 3 = 2 :=
  ⟨by decide,
    occurenceOfValue_signed_count (pushAll (mkBuf 4) [(1, 0), (5, 1)]) 3 3 (by decide),
    by decide⟩

/-- Claim C9 counterexample: at an unsigned 32-bit `T`, for the single live
value 1, test value 3 and epsilon 3, the subtraction `1 - 3` wraps to
2^32 - 2 and `absX` (the identity on an unsigned type) leaves it there, so
the item is not counted — yet its absolute difference from the test value is
2 < 3, so the claim's characterization predicts a count of 1. -/
theorem occurenceOfValue_unsigned_miscount :
    occurenceOfValueU32 [1] 3 3 = 0 ∧ ((1 : Int) - 3).natAbs < 3 := by decide

/-- Witness for C10: a buffer with two items, one of which is within 2 of the
test value 4; the frequency is 1/2. -/
theorem frequencyOfValue_nonempty_guard_witness :
    WF (pushAll (mkBuf 4) [(3, 0), (9, 1)])
    ∧ isEmpty (pushAll (mkBuf 4) [(3, 0), (9, 1)]) = false
    ∧ (getCount (pushAll (mkBuf 4) [(3, 0), (9, 1)]) : ℚ) ≠ 0
    ∧ frequencyOfValue (pushAll (mkBuf 4) [(3, 0), (9, 1)]) 4 2 = (1 : ℚ) / 2 :=
  ⟨by decide, by decide,
    ((frequencyOfValue_nonempty_guard (pushAll (mkBuf 4) [(3, 0), (9, 1)]) 4 2
      (by decide)).1 (by decide)).1,
    by
      have h1 : occurenceOfValue (pushAll (mkBuf 4) [(3, 0), (9, 1)]) 4 2 = 1 := by decide
      have h2 : getCount (pushAll (mkBuf 4) [(3, 0), (9, 1)]) = 2 := by decide
      unfold frequencyOfValue
      rw [h1, h2]
      norm_num⟩

end QMB
